import Mathlib

/-!
Verification of the TideKV log-structured key-value store.

This file shallowly embeds the core of the Go sources:
  - the record codec (storage/bitcask/entry.go),
  - segment files (storage/bitcask/datafile.go),
  - the store (storage/bitcask/db.go: Open/bootstrap/Put/Get/Delete/rotate),
  - the tiered hybrid index (index/hybrid.go),
  - the watch hub (watch/hub.go) and the raft FSM apply hook (raft/fsm.go),
and proves or refutes the specification's claims about them.

Machine integers are modelled as Nat with explicit reductions modulo 2^32 or
2^64 exactly where the Go code performs fixed-width arithmetic.  Go slices are
modelled with their backing array and length so that the len/cap distinction
and slice-bounds panics are captured faithfully.
-/

namespace TideKV

/-- 2^32, the modulus of Go uint32 arithmetic. -/
def u32Mod : Nat := 4294967296

/-- 2^64, the modulus of Go uint64 arithmetic. -/
def u64Mod : Nat := 18446744073709551616

/-- Little-endian byte encoding of x, n bytes wide
(binary.LittleEndian.PutUint32 / PutUint64 in the Go sources). -/
def leBytes (n x : Nat) : List Nat :=
  (List.range n).map fun i => x / 256 ^ i % 256

/-- Little-endian byte decoding (binary.LittleEndian.Uint32 / Uint64):
byte 0 is least significant.  Go bytes are < 256 by type; the model reads the
list entries as given. -/
def fromLE : List Nat → Nat
  | [] => 0
  | b :: rest => b + 256 * fromLE rest

/-! ### CRC-32 (IEEE)

hash/crc32.ChecksumIEEE computes the reflected CRC-32 with polynomial
0xEDB88320, initial value 0xFFFFFFFF and final xor 0xFFFFFFFF.  The Go
standard library uses a lookup table generated from exactly the bitwise
step modelled here (one shift-and-conditional-xor per bit, eight per byte). -/

/-- The reflected IEEE polynomial. -/
def crcPoly : Nat := 0xEDB88320

/-- One bit of the CRC-32 shift register update. -/
def crcStep (c : Nat) : Nat :=
  if c % 2 = 1 then c / 2 ^^^ crcPoly else c / 2

/-- One byte of the CRC-32 update: xor the byte in, then shift eight bits. -/
def crcByte (c b : Nat) : Nat := crcStep^[8] (c ^^^ b)

/-- crc32.ChecksumIEEE over a byte sequence. -/
def crc32 (data : List Nat) : Nat :=
  (data.foldl crcByte 0xFFFFFFFF) ^^^ 0xFFFFFFFF

/-! ### Go slices

A Go slice value is a view (length) into a backing array (capacity).  Slicing
s[lo:hi] is legal whenever lo ≤ hi ≤ cap(s), even when hi exceeds len(s); an
illegal slice expression panics at run time.  DataFile.Read returns data[:n]
on EOF, which keeps the 20-byte backing array reachable through the
capacity, so the model must track the backing buffer. -/

structure GoSlice where
  /-- backing array from the slice start to its capacity -/
  buf : List Nat
  /-- slice length (≤ buf.length in every slice the code builds) -/
  len : Nat
  deriving Repr, DecidableEq

/-- Capacity of a slice. -/
def GoSlice.cap (s : GoSlice) : Nat := s.buf.length

/-- A freshly made slice with len = cap, e.g. the result of make([]byte, n)
after filling, or a byte-string literal handed to Decode. -/
def GoSlice.ofList (l : List Nat) : GoSlice := ⟨l, l.length⟩

/-- binary.LittleEndian.Uint32(s[lo:lo+4]): reads four backing bytes.  In
every call site the bounds lo+4 ≤ len ≤ cap have already been checked. -/
def sliceU32 (s : GoSlice) (lo : Nat) : Nat :=
  fromLE ((s.buf.drop lo).take 4)

/-! ### Record codec (storage/bitcask/entry.go) -/

/-- Fixed header size: CRC(4) + Timestamp(8) + KeySize(4) + ValueSize(4). -/
def HeaderSize : Nat := 20

/-- Entry mirrors the Go struct.  Timestamp is kept as the uint64 bit
pattern Encode writes (uint64(e.Timestamp)). -/
structure Entry where
  crc : Nat
  timestamp : Nat
  keySize : Nat
  valueSize : Nat
  key : List Nat
  value : List Nat
  deriving Repr, DecidableEq

/-- NewEntry(key, value) with the write timestamp made explicit:
KeySize = uint32(len(key)), ValueSize = uint32(len(value)). -/
def NewEntry (key value : List Nat) (t : Nat) : Entry :=
  { crc := 0
    timestamp := t % u64Mod
    keySize := key.length % u32Mod
    valueSize := value.length % u32Mod
    key := key
    value := value }

/-- copy(dst, src) into a destination region of length n: writes
min(n, src.length) bytes, the rest of the region keeps its zero fill. -/
def copyRegion (src : List Nat) (n : Nat) : List Nat :=
  src.take n ++ List.replicate (n - src.length) 0

/-- Entry.Size(): HeaderSize + KeySize + ValueSize in uint32 arithmetic. -/
def Entry.size (e : Entry) : Nat :=
  (HeaderSize + e.keySize + e.valueSize) % u32Mod

/-- The bytes Encode lays out after the CRC field: timestamp, key size,
value size, key region, value region. -/
def Entry.body (e : Entry) : List Nat :=
  let ks := e.keySize % u32Mod
  let vs := e.valueSize % u32Mod
  let payload := (ks + vs) % u32Mod
  leBytes 8 (e.timestamp % u64Mod) ++ leBytes 4 ks ++ leBytes 4 vs ++
    copyRegion e.key ks ++ copyRegion e.value (payload - ks)

/-- Entry.Encode(): buffer of HeaderSize + uint32(KeySize+ValueSize) bytes;
CRC32-IEEE of bytes 4.. is computed last and stored little-endian in bytes
0..4. -/
def Entry.encode (e : Entry) : List Nat :=
  leBytes 4 (crc32 e.body) ++ e.body

/-- Encoding of a fresh entry for key/value at timestamp t. -/
def entryEncode (key value : List Nat) (t : Nat) : List Nat :=
  (NewEntry key value t).encode

/-- The four outcomes of Decode: success, the two documented errors, or a
Go run-time panic (slice bounds out of range). -/
inductive DecodeResult where
  | ok (e : Entry)
  | invalidEntry
  | crcMismatch
  | panic
  deriving Repr, DecidableEq

/-- Decode (entry.go lines 83-122).  Field reads, the uint32 size
arithmetic (totalSize := HeaderSize + int(KeySize+ValueSize), key bounds
20+KeySize) and the slice-bounds checks of data[20:20+ks] and
data[20+ks:totalSize] are modelled exactly; an out-of-range slice is a
panic. -/
def decode (data : GoSlice) : DecodeResult :=
  if data.len < HeaderSize then .invalidEntry
  else
    let crcStored := sliceU32 data 0
    let ts := fromLE ((data.buf.drop 4).take 8)
    let ks := sliceU32 data 12
    let vs := sliceU32 data 16
    let totalSize := HeaderSize + (ks + vs) % u32Mod
    if data.len < totalSize then .invalidEntry
    else
      let keyHi := (HeaderSize + ks) % u32Mod
      if HeaderSize ≤ keyHi ∧ keyHi ≤ data.cap then
        if keyHi ≤ totalSize ∧ totalSize ≤ data.cap then
          let key := (data.buf.drop HeaderSize).take (keyHi - HeaderSize)
          let value := (data.buf.drop keyHi).take (totalSize - keyHi)
          let computed := crc32 ((data.buf.drop 4).take (totalSize - 4))
          if computed ≠ crcStored then .crcMismatch
          else .ok ⟨crcStored, ts, ks, vs, key, value⟩
        else .panic
      else .panic

/-! ### Segment files (storage/bitcask/datafile.go)

No I/O errors other than the FileClosed check are modelled: the claims under
verification are about in-memory and on-disk state, not about failing
syscalls. -/

/-- The error values of storage/bitcask/errors.go and storage.ErrKeyNotFound
that the modelled paths can produce. -/
inductive GoErr where
  | fileClosed
  | invalidEntry
  | crcMismatch
  | keyNotFound
  deriving Repr, DecidableEq

/-- Result of a fallible Go call: value, error, or run-time panic. -/
inductive Res (α : Type) where
  | ok (a : α)
  | err (e : GoErr)
  | panic
  deriving Repr, DecidableEq

/-- A data file: its id, its on-disk bytes, and whether Close has run
(File == nil).  WriteOff always equals content.length: it starts at the
file size on open and is advanced by the number of bytes written. -/
structure DataFile where
  fileId : Nat
  content : List Nat
  closed : Bool
  deriving Repr, DecidableEq

/-- DataFile.Read (datafile.go lines 165-192): seek to offset, read up to
size bytes into a fresh zeroed buffer.  A read at or past EOF returns
data[:0] with a nil error (the io.EOF branch); a short read returns the
whole zero-padded buffer with length size (File.Read returns n < size with
a nil error on a partial read). -/
def DataFile.read (df : DataFile) (offset size : Nat) : Res GoSlice :=
  if df.closed then .err .fileClosed
  else
    let avail := df.content.length - offset
    let n := min size avail
    let buf := (df.content.drop offset).take n ++ List.replicate (size - n) 0
    if n = 0 ∧ 0 < size then .ok ⟨buf, 0⟩ else .ok ⟨buf, size⟩

/-- DataFile.ReadEntry (datafile.go lines 201-223): read the 20-byte
header, parse KeySize and ValueSize from its backing bytes (legal even for
the len-0 EOF slice, whose capacity is still 20), read
uint32(HeaderSize + int(keySize+valueSize)) bytes, decode. -/
def DataFile.readEntry (df : DataFile) (offset : Nat) : Res Entry :=
  match df.read offset HeaderSize with
  | .err e => .err e
  | .panic => .panic
  | .ok header =>
    let keySize := sliceU32 header 12
    let valueSize := sliceU32 header 16
    let totalSize := HeaderSize + (keySize + valueSize) % u32Mod
    match df.read offset (totalSize % u32Mod) with
    | .err e => .err e
    | .panic => .panic
    | .ok data =>
      match decode data with
      | .ok e => .ok e
      | .invalidEntry => .err .invalidEntry
      | .crcMismatch => .err .crcMismatch
      | .panic => .panic

/-! ### Store (storage/bitcask/db.go) -/

/-- storage.Position: (file id, offset, size). -/
structure Position where
  fileId : Nat
  offset : Nat
  size : Nat
  deriving Repr, DecidableEq

/-- Keys are byte strings. -/
abbrev Key := List Nat

/-- The in-memory index, keyed by the key bytes.  Both provided index
implementations (map_index.go and the radix-tree one) realise an exact-key
finite map; the model is an association list whose most recent binding
shadows older ones. -/
abbrev Index := List (Key × Position)

/-- Index.Put: overwrite the binding for key. -/
def indexPut (idx : Index) (k : Key) (p : Position) : Index := (k, p) :: idx

/-- Index.Get: the current binding for key, if any. -/
def indexGet (idx : Index) (k : Key) : Option Position := idx.lookup k

/-- Index.Delete: drop every binding for key. -/
def indexDel (idx : Index) (k : Key) : Index :=
  idx.filter fun e => !(e.fst == k)

/-- The bloom filter (index/bloom.go) wraps the third-party
bits-and-blooms filter, whose contract is: Test(k) is true for every key
previously Added (no false negatives), and may also be true for other keys.
The model keeps the set of added keys and makes Test exact; the claims
proved here rely only on the no-false-negative direction. -/
abbrev Bloom := List Key

/-- BloomFilter.Add. -/
def bloomAdd (b : Bloom) (k : Key) : Bloom := k :: b

/-- BloomFilter.Test, by the library's no-false-negative contract. -/
def bloomTest (b : Bloom) (k : Key) : Bool := b.contains k

/-- The DB of db.go: active file, sealed files (in creation order, which is
ascending file-id order), index, bloom filter, and the size limit option. -/
structure DBState where
  active : DataFile
  older : List DataFile
  index : Index
  bloom : Bloom
  limit : Nat
  deriving Repr, DecidableEq

/-- A freshly opened DB over an empty directory (bootstrap with no data
files): one empty active file with id 0. -/
def DB.openFresh (limit : Nat) : DBState :=
  { active := ⟨0, [], false⟩, older := [], index := [], bloom := [], limit := limit }

/-- DB.rotateActiveFile (db.go lines 293-311): Close() the active file
(sync, then File = nil), move the closed handle into olderFiles, open a
fresh file with the next id as active. -/
def DB.rotate (st : DBState) : DBState :=
  { st with
    older := st.older ++ [{ st.active with closed := true }]
    active := ⟨st.active.fileId + 1, [], false⟩ }

/-- DB.Put (db.go lines 252-291): rotate first if WriteOff ≥ limit, append
the encoded entry to the active file, record the pre-write offset in the
index, add the key to the bloom filter. -/
def DB.put (st : DBState) (key value : List Nat) (t : Nat) : Res DBState :=
  let st := if st.limit ≤ st.active.content.length then DB.rotate st else st
  if st.active.closed then .err .fileClosed
  else
    let e := NewEntry key value t
    let offset := st.active.content.length
    let active := { st.active with content := st.active.content ++ e.encode }
    let pos : Position := ⟨active.fileId, offset, e.size⟩
    .ok { st with
      active := active
      index := indexPut st.index key pos
      bloom := bloomAdd st.bloom key }

/-- DB.Get (db.go lines 319-360): bloom pre-filter, index lookup, segment
selection by file id (active, else the olderFiles map), ReadEntry at the
recorded offset, return the entry's value. -/
def DB.get (st : DBState) (key : List Nat) : Res (List Nat) :=
  if ¬ bloomTest st.bloom key then .err .keyNotFound
  else
    match indexGet st.index key with
    | none => .err .keyNotFound
    | some pos =>
      let file? : Option DataFile :=
        if pos.fileId = st.active.fileId then some st.active
        else st.older.find? fun f => f.fileId == pos.fileId
      match file? with
      | none => .err .keyNotFound
      | some df =>
        match df.readEntry pos.offset with
        | .ok e => .ok e.value
        | .err e => .err e
        | .panic => .panic

/-- DB.Delete (db.go lines 367-382): remove the key from the index only.
No tombstone is written and the bloom filter is untouched. -/
def DB.del (st : DBState) (key : List Nat) : DBState :=
  { st with index := indexDel st.index key }

/-- DB.Close: close the active and all sealed files. -/
def DB.close (st : DBState) : DBState :=
  { st with
    active := { st.active with closed := true }
    older := st.older.map fun f => { f with closed := true } }

/-- The directory contents after a session: every segment file's bytes,
keyed by file id (older files first, active last — creation order). -/
def DBState.dirFiles (st : DBState) : List (Nat × List Nat) :=
  (st.older.map fun f => (f.fileId, f.content)) ++ [(st.active.fileId, st.active.content)]

/-! ### Association-list helpers

hotEntries / warmEntries / the stats map are Go maps keyed by string(key).
They are modelled as association lists with at most one binding per key:
updates rewrite the existing binding in place, inserts prepend. -/

/-- Map lookup. -/
def alGet {α : Type} (l : List (Key × α)) (k : Key) : Option α := l.lookup k

/-- Map store: rewrite the binding if present, insert otherwise. -/
def alSet {α : Type} (l : List (Key × α)) (k : Key) (v : α) : List (Key × α) :=
  if (l.lookup k).isSome then
    l.map fun e => if e.fst == k then (k, v) else e
  else (k, v) :: l

/-- Map delete. -/
def alErase {α : Type} (l : List (Key × α)) (k : Key) : List (Key × α) :=
  l.filter fun e => !(e.fst == k)

/-! ### Tiered hybrid index (index/hybrid.go)

The source keeps two structurally identical entry structs (HotEntry,
WarmEntry); the model uses one shape for both tiers.  Each tier is kept
once: the source's parallel radix tree and entries map always hold the same
key set.  time.Now() is modelled by a monotone counter ticked once per
index operation; lock acquisition is elided (all modelled runs are
sequential). -/

/-- Hot/warm tier entry: location, per-tier frequency, last access time. -/
structure TierEntry where
  pos : Position
  freq : Int
  lastAccess : Nat
  deriving Repr, DecidableEq

/-- Cold-tier sparse index entry: key, file id, offset (no size). -/
structure SparseIndexEntry where
  key : Key
  fileId : Nat
  offset : Nat
  deriving Repr, DecidableEq

/-- Placeholder entry for out-of-range reads (never produced by the runs
proved about; Go would panic instead, but binarySearch only dereferences
in-range indices). -/
def sparseDefault : SparseIndexEntry := ⟨[], 0, 0⟩

/-- HybridOptions with the defaults of DefaultHybridOptions. -/
structure HybridOptions where
  hotCapacity : Nat
  warmCapacity : Nat
  promoteThreshold : Int
  demoteThreshold : Int
  deriving Repr, DecidableEq

def defaultHybridOptions : HybridOptions :=
  { hotCapacity := 10000, warmCapacity := 100000
    promoteThreshold := 10, demoteThreshold := 5 }

/-- The HybridIndex state. -/
structure HybridIndex where
  hot : List (Key × TierEntry)
  warm : List (Key × TierEntry)
  cold : List SparseIndexEntry
  stats : List (Key × Int)
  totalKeys : Int
  options : HybridOptions
  now : Nat
  deriving Repr, DecidableEq

/-- A fresh index (NewHybridIndex). -/
def HybridIndex.new (opts : HybridOptions) : HybridIndex :=
  { hot := [], warm := [], cold := [], stats := [], totalKeys := 0
    options := opts, now := 0 }

/-- incrementStats: LoadOrStore a zero counter, then Add(1). -/
def HybridIndex.bumpStats (hi : HybridIndex) (k : Key) : HybridIndex :=
  { hi with stats := alSet hi.stats k ((alGet hi.stats k).getD 0 + 1) }

/-- getStats: the global access counter, zero when absent. -/
def HybridIndex.getStats (hi : HybridIndex) (k : Key) : Int :=
  (alGet hi.stats k).getD 0

/-- compareKeys: byte-wise comparison, then length. -/
def compareKeys : Key → Key → Ordering
  | [], [] => .eq
  | [], _ :: _ => .lt
  | _ :: _, [] => .gt
  | a :: as, b :: bs =>
    if a < b then .lt else if b < a then .gt else compareKeys as bs

/-- The loop of HybridIndex.binarySearch, with the inclusive upper bound
hiIdx of the source carried as hi1 = hiIdx + 1 so the search stays in Nat;
`lo ≤ hiIdx` becomes `lo < hi1` and `hiIdx := mid - 1` becomes
`hi1 := mid`.  Returns lo on a miss, exactly as the source does. -/
def binarySearchAux (arr : List SparseIndexEntry) (key : Key) :
    Nat → Nat → Nat → Nat
  | 0, lo, _ => lo
  | fuel + 1, lo, hi1 =>
    if lo < hi1 then
      let mid := (lo + hi1 - 1) / 2
      match compareKeys (arr.getD mid sparseDefault).key key with
      | .eq => mid
      | .lt => binarySearchAux arr key fuel (mid + 1) hi1
      | .gt => binarySearchAux arr key fuel lo mid
    else lo

/-- HybridIndex.binarySearch (lo = 0, hiIdx = len-1).  The interval
hi1 - lo shrinks every iteration, so arr.length steps of fuel always
suffice and the fuel-exhaustion branch is unreachable. -/
def binarySearch (arr : List SparseIndexEntry) (key : Key) : Nat :=
  binarySearchAux arr key arr.length 0 arr.length

/-- addToCold: append to the sparse index.  The source does not insert in
sorted position (its own comment says the sorting logic is omitted and
assumes inserts arrive in order). -/
def HybridIndex.addToCold (hi : HybridIndex) (k : Key) (pos : Position) : HybridIndex :=
  { hi with cold := hi.cold ++ [⟨k, pos.fileId, pos.offset⟩] }

/-- getFromCold: binary search; on an exact key match return the location
with size 0. -/
def HybridIndex.getFromCold (hi : HybridIndex) (k : Key) : Option Position :=
  let idx := binarySearch hi.cold k
  if idx < hi.cold.length ∧ (hi.cold.getD idx sparseDefault).key = k then
    some ⟨(hi.cold.getD idx sparseDefault).fileId, (hi.cold.getD idx sparseDefault).offset, 0⟩
  else none

/-- removeFromCold: binary search; splice the hit out. -/
def HybridIndex.removeFromCold (hi : HybridIndex) (k : Key) : Bool × HybridIndex :=
  let idx := binarySearch hi.cold k
  if idx < hi.cold.length ∧ (hi.cold.getD idx sparseDefault).key = k then
    (true, { hi with cold := hi.cold.take idx ++ hi.cold.drop (idx + 1) })
  else (false, hi)

/-- demoteOneFromHot: move the entry with minimal per-tier frequency (map
iteration order is arbitrary in Go; the model takes the first minimum in
list order) into warm, frequency preserved. -/
def HybridIndex.demoteOneFromHot (hi : HybridIndex) : HybridIndex :=
  match hi.hot.foldl
      (fun acc e => match acc with
        | none => some e
        | some m => if e.snd.freq < m.snd.freq then some e else some m)
      none with
  | none => hi
  | some (k, entry) =>
    { hi with
      hot := alErase hi.hot k
      warm := alSet hi.warm k { pos := entry.pos, freq := entry.freq, lastAccess := hi.now } }

/-- demoteOneFromWarm: move the entry with the oldest lastAccess into cold
(appended, location only). -/
def HybridIndex.demoteOneFromWarm (hi : HybridIndex) : HybridIndex :=
  match hi.warm.foldl
      (fun acc e => match acc with
        | none => some e
        | some m => if e.snd.lastAccess < m.snd.lastAccess then some e else some m)
      none with
  | none => hi
  | some (k, entry) =>
    { hi with
      warm := alErase hi.warm k
      cold := hi.cold ++ [⟨k, entry.pos.fileId, entry.pos.offset⟩] }

/-- promoteToHot: if the key is in warm, demote one hot entry when hot is
at capacity, move the warm entry into hot (frequency preserved), reset the
global stats entry. -/
def HybridIndex.promoteToHot (hi : HybridIndex) (k : Key) : HybridIndex :=
  match alGet hi.warm k with
  | none => hi
  | some entry =>
    let hi := if hi.options.hotCapacity ≤ hi.hot.length then hi.demoteOneFromHot else hi
    { hi with
      warm := alErase hi.warm k
      hot := alSet hi.hot k { pos := entry.pos, freq := entry.freq, lastAccess := hi.now }
      stats := alErase hi.stats k }

/-- addToWarm: demote one warm entry when warm is at capacity, then store
the entry with frequency seeded from the global stats counter. -/
def HybridIndex.addToWarm (hi : HybridIndex) (k : Key) (pos : Position) : HybridIndex :=
  let hi := if hi.options.warmCapacity ≤ hi.warm.length then hi.demoteOneFromWarm else hi
  { hi with
    warm := alSet hi.warm k { pos := pos, freq := hi.getStats k, lastAccess := hi.now } }

/-- HybridIndex.Put (part_004 lines 166-196): bump global stats; update in
place on a hot or warm hit (promoting warm to hot past the threshold); new
keys go to cold. -/
def HybridIndex.put (hi : HybridIndex) (k : Key) (pos : Position) : HybridIndex :=
  let hi := hi.bumpStats k
  match alGet hi.hot k with
  | some entry =>
    { hi with hot := alSet hi.hot k { entry with pos := pos, freq := entry.freq + 1 }
              now := hi.now + 1 }
  | none =>
    match alGet hi.warm k with
    | some entry =>
      let hi := { hi with
        warm := alSet hi.warm k { entry with pos := pos, freq := entry.freq + 1 } }
      let hi := if hi.options.promoteThreshold ≤ hi.getStats k then hi.promoteToHot k else hi
      { hi with now := hi.now + 1 }
    | none =>
      let hi := hi.addToCold k pos
      { hi with totalKeys := hi.totalKeys + 1, now := hi.now + 1 }

/-- HybridIndex.Get (part_004 lines 199-240): probe hot, warm, cold in
order; on a warm hit promote past the threshold; on a cold hit with global
frequency ≥ 2, admit the key to warm.  Returns the position found and the
updated index state. -/
def HybridIndex.get (hi : HybridIndex) (k : Key) : Option Position × HybridIndex :=
  match alGet hi.hot k with
  | some entry =>
    let hi := hi.bumpStats k
    let hi := { hi with
      hot := alSet hi.hot k { entry with freq := entry.freq + 1, lastAccess := hi.now } }
    (some entry.pos, { hi with now := hi.now + 1 })
  | none =>
    match alGet hi.warm k with
    | some entry =>
      let hi := hi.bumpStats k
      let hi := { hi with
        warm := alSet hi.warm k { entry with freq := entry.freq + 1, lastAccess := hi.now } }
      let hi := if hi.options.promoteThreshold ≤ hi.getStats k then hi.promoteToHot k else hi
      (some entry.pos, { hi with now := hi.now + 1 })
    | none =>
      match hi.getFromCold k with
      | some pos =>
        let hi := hi.bumpStats k
        let hi := if 2 ≤ hi.getStats k then hi.addToWarm k pos else hi
        (some pos, { hi with now := hi.now + 1 })
      | none => (none, hi)

/-- HybridIndex.Delete (part_004 lines 243-265): try hot, then warm, then
cold, returning true on the first hit.  The stats deletion and the
totalKeys decrement sit after the three removal attempts and therefore run
only when every tier missed. -/
def HybridIndex.delete (hi : HybridIndex) (k : Key) : Bool × HybridIndex :=
  if (alGet hi.hot k).isSome then
    (true, { hi with hot := alErase hi.hot k })
  else if (alGet hi.warm k).isSome then
    (true, { hi with warm := alErase hi.warm k })
  else
    match hi.removeFromCold k with
    | (true, hi) => (true, hi)
    | (false, hi) =>
      (false, { hi with stats := alErase hi.stats k, totalKeys := hi.totalKeys - 1 })

/-- Number of tiers currently holding k. -/
def HybridIndex.tierCount (hi : HybridIndex) (k : Key) : Nat :=
  (if (alGet hi.hot k).isSome then 1 else 0) +
  (if (alGet hi.warm k).isSome then 1 else 0) +
  (hi.cold.filter fun e => e.key == k).length

/-! ### Watch hub (watch/hub.go) and the raft FSM (raft/fsm.go) -/

inductive EventType where
  | put
  | del
  deriving Repr, DecidableEq

/-- watch.Event. -/
structure Event where
  type : EventType
  key : List Nat
  value : List Nat
  prevValue : List Nat
  deriving Repr, DecidableEq

/-- watch.Watcher: bounded event queue, subscription prefix, closed flag. -/
structure Watcher where
  ch : List Event
  cap : Nat
  pfx : List Nat
  closed : Bool
  deriving Repr, DecidableEq

/-- Watcher.IsMatch: empty prefix matches everything, otherwise byte-wise
strings.HasPrefix. -/
def Watcher.isMatch (w : Watcher) (ev : Event) : Bool :=
  if w.pfx = [] then true else w.pfx.isPrefixOf ev.key

/-- WatchHub.Notify (part_000 lines 195-221): for every open matching
watcher attempt a non-blocking send; a full queue drops the event for that
watcher only. -/
def hubNotify (watchers : List Watcher) (ev : Event) : List Watcher :=
  watchers.map fun w =>
    if w.closed then w
    else if w.isMatch ev then
      (if w.ch.length < w.cap then { w with ch := w.ch ++ [ev] } else w)
    else w

/-- WatchHub.NotifyPut (part_000 lines 228-235). -/
def hubNotifyPut (watchers : List Watcher) (key value : List Nat) : List Watcher :=
  hubNotify watchers ⟨.put, key, value, []⟩

/-- A committed log command (the msgpack framing of raft log.Data is
elided; Apply decodes log.Data into exactly this shape). -/
inductive LogCommand where
  | put (key value : List Nat)
  | del (key : List Nat)
  deriving Repr, DecidableEq

/-- BitcaskFSM.Apply (part_005 lines 58-84): a put runs engine.Put, a
delete runs engine.Delete, and nothing else happens.  The FSM holds no
reference to the WatchHub; NotifyPut / NotifyDelete (part_000) have no
caller on the apply path, so the list of events published during apply —
the second component — is empty in both cases. -/
def fsmApply (engine : DBState) (cmd : LogCommand) (t : Nat) :
    Res DBState × List Event :=
  match cmd with
  | .put k v => (DB.put engine k v t, [])
  | .del k => (.ok (DB.del engine k), [])

/-! ### Recovery (DB.bootstrap, db.go lines 144-245) -/

/-- The scan loop of bootstrap over one data file: ReadEntry at the running
offset; on success replay (key, location) into the index and the bloom
filter and advance by Entry.Size(); on a decode error advance 20 bytes and
stop once the file's WriteOff is reached.  ReadEntry never produces io.EOF
(DataFile.Read swallows it), so the io.EOF break of the source is dead.
The loop is modelled with fuel; every iteration advances the offset by at
least 20 bytes (a decoded entry's size is at least HeaderSize), so
content.length + 1 steps always suffice and the fuel-exhaustion branch is
unreachable. -/
def scanLoop (fuel : Nat) (df : DataFile) (writeOff offset : Nat)
    (idx : Index) (bloom : Bloom) : Res (Index × Bloom) :=
  match fuel with
  | 0 => .panic
  | fuel + 1 =>
    match df.readEntry offset with
    | .panic => .panic
    | .err _ =>
      if writeOff ≤ offset + 20 then .ok (idx, bloom)
      else scanLoop fuel df writeOff (offset + 20) idx bloom
    | .ok e =>
      let pos : Position := ⟨df.fileId, offset, e.size⟩
      scanLoop fuel df writeOff (offset + e.size)
        (indexPut idx e.key pos) (bloomAdd bloom e.key)

/-- Open one on-disk file and run the recovery scan over it (WriteOff is
the file length on open). -/
def bootFile (f : Nat × List Nat) (idx : Index) (bloom : Bloom) :
    Res (Index × Bloom) :=
  scanLoop (f.snd.length + 1) ⟨f.fst, f.snd, false⟩ f.snd.length 0 idx bloom

/-- Scan a list of files in order, threading index and filter. -/
def bootFiles : List (Nat × List Nat) → Index → Bloom → Res (Index × Bloom)
  | [], idx, bloom => .ok (idx, bloom)
  | f :: fs, idx, bloom =>
    match bootFile f idx bloom with
    | .ok (i, b) => bootFiles fs i b
    | .err e => .err e
    | .panic => .panic

/-- Insertion into an id-sorted file list (bootstrap sorts the collected
file ids ascending with sort.Slice; any correct sort is equivalent). -/
def sortInsert (x : Nat × List Nat) :
    List (Nat × List Nat) → List (Nat × List Nat)
  | [] => [x]
  | y :: ys => if x.fst ≤ y.fst then x :: y :: ys else y :: sortInsert x ys

/-- Sort the directory listing by file id. -/
def sortFiles (l : List (Nat × List Nat)) : List (Nat × List Nat) :=
  l.foldr sortInsert []

/-- DB.bootstrap over a directory listing: with no data files, create file
0 as the empty active file; otherwise sort by id, scan every file in
order, keep the last as active and the rest as (open) sealed files, and if
the active file ends up empty while earlier files exist, switch the active
file to a fresh one with id max + 1 (the empty one is dropped from the
DB's maps, which is harmless because it holds no record). -/
def bootstrap (dir : List (Nat × List Nat)) (limit : Nat) : Res DBState :=
  if dir.isEmpty then .ok (DB.openFresh limit)
  else
    let sorted := sortFiles dir
    match bootFiles sorted [] [] with
    | .err e => .err e
    | .panic => .panic
    | .ok (idx, bloom) =>
      match sorted.getLast? with
      | none => .ok (DB.openFresh limit)
      | some f =>
        let olderFiles := sorted.dropLast.map
          fun g => (⟨g.fst, g.snd, false⟩ : DataFile)
        let active : DataFile := ⟨f.fst, f.snd, false⟩
        let st : DBState :=
          { active := active, older := olderFiles, index := idx
            bloom := bloom, limit := limit }
        if active.content.length = 0 then
          .ok { st with active := ⟨f.fst + 1, [], false⟩ }
        else .ok st

/-! ### Operation sequences against the store -/

/-- A client operation against the store (timestamps made explicit). -/
inductive Op where
  | put (k v : List Nat) (t : Nat)
  | del (k : List Nat)
  deriving Repr, DecidableEq

/-- Run a sequence of operations from a given state. -/
def runOps (st : DBState) : List Op → Res DBState
  | [] => .ok st
  | op :: ops =>
    match (match op with
           | .put k v t => DB.put st k v t
           | .del k => .ok (DB.del st k)) with
    | .ok st2 => runOps st2 ops
    | .err e => .err e
    | .panic => .panic

/-- The value of the last put for k in an operation sequence, if any. -/
def lastPut (ops : List Op) (k : Key) : Option (List Nat) :=
  ops.foldl
    (fun acc op => match op with
      | .put k2 v _ => if k2 = k then some v else acc
      | .del _ => acc) none

/-- Whether the last operation mentioning k is a put (k was put at least
once and not subsequently deleted). -/
def lastOpIsPut (ops : List Op) (k : Key) : Bool :=
  ops.foldl
    (fun acc op => match op with
      | .put k2 _ _ => if k2 = k then true else acc
      | .del k2 => if k2 = k then false else acc) false

/-- Sanity of one operation: key and value are byte strings (every element
below 256, as Go's []byte guarantees) and fit a real record (key_size +
value_size + header below 2^32, so none of the uint32 size arithmetic
wraps). -/
def opSmall : Op → Bool
  | .put k v _ =>
    decide (k.length + v.length + HeaderSize < u32Mod) &&
      k.all (fun b => b < 256) && v.all (fun b => b < 256)
  | .del _ => true

/-- Size sanity of a whole sequence. -/
def sizesOK (ops : List Op) : Bool := ops.all opSmall

/-- Chain a get behind a fallible state computation (convenience for
stating concrete end-to-end runs). -/
def resGet (r : Res DBState) (k : Key) : Res (List Nat) :=
  match r with
  | .ok st => DB.get st k
  | .err e => .err e
  | .panic => .panic

/-! ### Concrete scenario inputs for the refuted claims -/

/-- Flip bit j of byte i of a buffer. -/
def flipBit (l : List Nat) (i j : Nat) : List Nat :=
  l.set i ((l.getD i 0) ^^^ (1 <<< j))

/-- A 20-byte buffer whose header declares key_size = value_size = 2^31:
the sizes sum to 2^32, which uint32 addition wraps to 0. -/
def c6Input : List Nat :=
  leBytes 4 0 ++ leBytes 8 0 ++ leBytes 4 2147483648 ++ leBytes 4 2147483648

/-- Two puts against a store with a 1-byte segment size limit: the second
put rotates, sealing (and closing) the file that holds the first record. -/
def c1Run : Res DBState :=
  runOps (DB.openFresh 1) [.put [97] [49] 0, .put [98] [50] 0]

/-- Whether a sparse-index list is sorted by key (byte-lexicographic, as
the binary search requires). -/
def coldSortedList : List SparseIndexEntry → Bool
  | [] => true
  | [_] => true
  | e1 :: e2 :: rest =>
    match compareKeys e1.key e2.key with
    | .gt => false
    | _ => coldSortedList (e2 :: rest)

/-- Whether the cold tier is sorted by key. -/
def coldSorted (hi : HybridIndex) : Bool := coldSortedList hi.cold

/-- Fresh hybrid index, one put of key "a": the key lands in cold. -/
def c4State0 : HybridIndex :=
  (HybridIndex.new defaultHybridOptions).put [97] ⟨0, 0, 22⟩

/-- ... then one get of "a": the cold hit admits the key to warm. -/
def c4State1 : HybridIndex := (c4State0.get [97]).snd

/-- Fresh hybrid index, put "b" then put "a": both are new keys and are
appended to cold in that order. -/
def c5State : HybridIndex :=
  ((HybridIndex.new defaultHybridOptions).put [98] ⟨0, 0, 22⟩).put [97] ⟨0, 22, 22⟩

/-- Fresh hybrid index holding one key "c" (in cold, with a global
frequency entry of 1 from the put). -/
def c8State : HybridIndex :=
  (HybridIndex.new defaultHybridOptions).put [99] ⟨0, 0, 22⟩

/-- Fresh hybrid index, put "b" then put "a": cold is the unsorted [b, a],
and "a" carries a global frequency entry of 1 from its put. -/
def c8MissState : HybridIndex :=
  ((HybridIndex.new defaultHybridOptions).put [98] ⟨0, 0, 22⟩).put [97] ⟨0, 22, 22⟩

/-- The CRC-covered part of a record whose header declares sizes n and m
and whose key/value payload is p: timestamp, key size, value size, payload.
Entry.body of a well-sized entry has exactly this shape. -/
def recordBody (ts n m : Nat) (p : List Nat) : List Nat :=
  leBytes 8 ts ++ leBytes 4 n ++ leBytes 4 m ++ p

/-- A well-formed record as Put writes them: declared sizes match the
actual key/value lengths, both are byte strings, the timestamp fits
uint64, and the total size fits uint32. -/
def WFRecord (e : Entry) : Prop :=
  e.keySize = e.key.length ∧ e.valueSize = e.value.length ∧
  e.timestamp < u64Mod ∧
  e.key.length + e.value.length + HeaderSize < u32Mod ∧
  (∀ b ∈ e.key, b < 256) ∧ (∀ b ∈ e.value, b < 256)

/-- The byte image of a list of records laid end to end in a segment. -/
def encJoin (g : List Entry) : List Nat := (g.map Entry.encode).flatten

/-- The records of one segment paired with the locations the recovery scan
assigns them: file id, running offset, Entry.Size(). -/
def scanEnt (fid : Nat) : Nat → List Entry → List (Entry × Position)
  | _, [] => []
  | off, e :: rs => (e, ⟨fid, off, e.size⟩) :: scanEnt fid (off + e.size) rs

/-- All records of a segment directory, with locations, in scan order. -/
def allEnt (G : List (Nat × List Entry)) : List (Entry × Position) :=
  (G.map fun p => scanEnt p.fst 0 p.snd).flatten

/-- The last binding for key k produced by replaying an association stream
in order (later bindings shadow earlier ones). -/
def lastAssoc {α : Type} (ps : List (Key × α)) (k : Key) : Option α :=
  ps.foldl (fun acc p => if p.fst = k then some p.snd else acc) none

/-- The last record-location pair for key k in a scan stream. -/
def lastFor (ps : List (Entry × Position)) (k : Key) : Option (Entry × Position) :=
  ps.foldl (fun acc p => if p.fst.key = k then some p else acc) none

/-- The last record with key k in a record stream. -/
def lastEnt (recs : List Entry) (k : Key) : Option Entry :=
  recs.foldl (fun acc e => if e.key = k then some e else acc) none

/-- The records a sequence of operations appends to disk, in order (puts
append one record each; deletes write nothing). -/
def opsEntries (ops : List Op) : List Entry :=
  ops.filterMap fun op =>
    match op with
    | .put k v t => some (NewEntry k v t)
    | .del _ => none

/-- One step of the disk-layout model: where DB.Put places the next record.
The accumulator is (sealed segments with their records, active file id,
active segment records); rotation seals the active segment exactly when
its byte length has reached the limit before the write. -/
def diskStep (limit : Nat)
    (acc : List (Nat × List Entry) × Nat × List Entry) (op : Op) :
    List (Nat × List Entry) × Nat × List Entry :=
  match op with
  | .del _ => acc
  | .put k v t =>
    let sealed := acc.1
    let aid := acc.2.1
    let ag := acc.2.2
    if limit ≤ (encJoin ag).length then
      (sealed ++ [(aid, ag)], aid + 1, [NewEntry k v t])
    else
      (sealed, aid, ag ++ [NewEntry k v t])

/-- The disk layout produced by running a sequence of operations against a
fresh store. -/
def diskModel (limit : Nat) (ops : List Op) :
    List (Nat × List Entry) × Nat × List Entry :=
  ops.foldl (diskStep limit) ([], 0, [])

/-- The segment directory (ids with record groups) of a disk layout:
sealed segments first, the active segment last. -/
def diskDir (d : List (Nat × List Entry) × Nat × List Entry) :
    List (Nat × List Entry) :=
  d.1 ++ [(d.2.1, d.2.2)]

/-! ## Theorems -/

/-! ### Little-endian byte strings -/

@[simp] theorem leBytes_length (n x : Nat) : (leBytes n x).length = n := by
  simp [leBytes]

theorem leBytes_succ (n x : Nat) :
    leBytes (n + 1) x = x % 256 :: leBytes n (x / 256) := by
  simp only [leBytes, List.range_succ_eq_map, List.map_cons, List.map_map]
  congr 1
  · simp
  · apply List.map_congr_left
    intro i _
    simp only [Function.comp_apply, pow_succ]
    rw [Nat.div_div_eq_div_mul, Nat.mul_comm]

theorem leBytes_mem_lt (n x : Nat) : ∀ b ∈ leBytes n x, b < 256 := by
  intro b hb
  simp only [leBytes, List.mem_map] at hb
  obtain ⟨i, _, hi⟩ := hb
  omega

theorem fromLE_leBytes (n x : Nat) (hx : x < 256 ^ n) :
    fromLE (leBytes n x) = x := by
  induction n generalizing x with
  | zero =>
      simp only [pow_zero, Nat.lt_one_iff] at hx
      simp [leBytes, hx, fromLE]
  | succ n ih =>
      rw [leBytes_succ]
      simp only [fromLE]
      rw [ih (x / 256) (by rw [pow_succ] at hx; omega)]
      omega

theorem leBytes_fromLE (l : List Nat) (h : ∀ b ∈ l, b < 256) :
    leBytes l.length (fromLE l) = l := by
  induction l with
  | nil => simp [leBytes]
  | cons b rest ih =>
      have hb : b < 256 := h b (by simp)
      simp only [List.length_cons, leBytes_succ, fromLE]
      congr 1
      · omega
      · rw [show (b + 256 * fromLE rest) / 256 = fromLE rest by omega]
        exact ih fun x hx => h x (by simp [hx])

theorem fromLE_lt (l : List Nat) (h : ∀ b ∈ l, b < 256) :
    fromLE l < 256 ^ l.length := by
  induction l with
  | nil => simp [fromLE]
  | cons b rest ih =>
      have hb : b < 256 := h b (by simp)
      have hr := ih (fun x hx => h x (by simp [hx]))
      have hpow : 1 ≤ 256 ^ rest.length := Nat.one_le_pow _ _ (by norm_num)
      simp only [fromLE, List.length_cons, pow_succ]
      nlinarith [hr, hb, hpow]

/-! ### CRC-32 algebra

crcStep is F2-linear on the 32-bit shift register and injective below 2^32,
so a single flipped bit anywhere in the message propagates to a nonzero
difference in the final checksum. -/

theorem xor_div_two (a b : Nat) : (a ^^^ b) / 2 = a / 2 ^^^ b / 2 := by
  apply Nat.eq_of_testBit_eq
  intro i
  simp [Nat.testBit_div_two, Nat.testBit_xor]

theorem xor_left_cancel {a b c : Nat} (h : a ^^^ b = a ^^^ c) : b = c := by
  have := congrArg (fun x => a ^^^ x) h
  simpa [← Nat.xor_assoc, Nat.xor_self, Nat.zero_xor] using this

theorem crcStep_linear (a b : Nat) :
    crcStep (a ^^^ b) = crcStep a ^^^ crcStep b := by
  unfold crcStep
  have hmod : (a ^^^ b) % 2 = (a + b) % 2 := Nat.xor_mod_two_eq
  rcases Nat.mod_two_eq_zero_or_one a with ha | ha <;>
    rcases Nat.mod_two_eq_zero_or_one b with hb | hb
  · rw [if_neg (by omega), if_neg (by omega), if_neg (by omega), xor_div_two]
  · rw [if_pos (by omega), if_neg (by omega), if_pos (by omega), xor_div_two,
      Nat.xor_assoc]
  · rw [if_pos (by omega), if_pos (by omega), if_neg (by omega), xor_div_two,
      Nat.xor_assoc, Nat.xor_comm (b / 2) crcPoly, ← Nat.xor_assoc]
  · rw [if_neg (by omega), if_pos (by omega), if_pos (by omega), xor_div_two,
      Nat.xor_assoc, Nat.xor_comm (b / 2) crcPoly,
      ← Nat.xor_assoc crcPoly crcPoly, Nat.xor_self, Nat.zero_xor]

theorem crcStep_lt {c : Nat} (h : c < u32Mod) : crcStep c < u32Mod := by
  unfold crcStep
  have hdiv : c / 2 < u32Mod := lt_of_le_of_lt (Nat.div_le_self c 2) h
  split
  · have h1 : c / 2 < 2 ^ 32 := by simpa [u32Mod] using hdiv
    have h2 : crcPoly < 2 ^ 32 := by norm_num [crcPoly]
    simpa [u32Mod] using Nat.xor_lt_two_pow h1 h2
  · exact hdiv

theorem crcStep_zero : crcStep 0 = 0 := by decide

theorem crcStep_eq_zero {c : Nat} (hlt : c < u32Mod) (h : crcStep c = 0) :
    c = 0 := by
  unfold crcStep at h
  by_cases hpar : c % 2 = 1
  · rw [if_pos hpar] at h
    have heq : c / 2 = crcPoly := Nat.xor_eq_zero.mp h
    have : c / 2 < 2147483648 := by simp only [u32Mod] at hlt; omega
    rw [heq] at this
    norm_num [crcPoly] at this
  · rw [if_neg hpar] at h
    omega

theorem crcStepN_linear (n a b : Nat) :
    crcStep^[n] (a ^^^ b) = crcStep^[n] a ^^^ crcStep^[n] b := by
  induction n generalizing a b with
  | zero => simp
  | succ n ih =>
      simp only [Function.iterate_succ_apply, crcStep_linear]
      exact ih _ _

theorem crcStepN_lt {c : Nat} (n : Nat) (h : c < u32Mod) :
    crcStep^[n] c < u32Mod := by
  induction n with
  | zero => simpa
  | succ n ih => simpa [Function.iterate_succ_apply'] using crcStep_lt ih

theorem crcStepN_ne_zero {e : Nat} (n : Nat) (hlt : e < u32Mod)
    (hne : e ≠ 0) : crcStep^[n] e ≠ 0 := by
  induction n with
  | zero => simpa
  | succ n ih =>
      rw [Function.iterate_succ_apply']
      intro h0
      exact ih (crcStep_eq_zero (crcStepN_lt n hlt) h0)

theorem crcByte_xor_left (c e b : Nat) :
    crcByte (c ^^^ e) b = crcByte c b ^^^ crcStep^[8] e := by
  unfold crcByte
  rw [Nat.xor_comm c e, Nat.xor_assoc, Nat.xor_comm e, crcStepN_linear]

theorem crcByte_xor_right (c b e : Nat) :
    crcByte c (b ^^^ e) = crcByte c b ^^^ crcStep^[8] e := by
  unfold crcByte
  rw [← Nat.xor_assoc, crcStepN_linear]

theorem foldl_crcByte_xor (l : List Nat) (c e : Nat) :
    l.foldl crcByte (c ^^^ e) =
      l.foldl crcByte c ^^^ crcStep^[8 * l.length] e := by
  induction l generalizing c e with
  | nil => simp
  | cons b l ih =>
      simp only [List.foldl_cons, List.length_cons]
      rw [crcByte_xor_left, ih]
      rw [show 8 * (l.length + 1) = 8 * l.length + 8 by ring,
        Function.iterate_add_apply]

theorem crc32_flip_ne (pre suf : List Nat) (b e : Nat) (he1 : e ≠ 0)
    (he2 : e < u32Mod) :
    crc32 (pre ++ (b ^^^ e) :: suf) ≠ crc32 (pre ++ b :: suf) := by
  unfold crc32
  rw [List.foldl_append, List.foldl_append]
  simp only [List.foldl_cons]
  rw [crcByte_xor_right, foldl_crcByte_xor]
  intro h
  set F := List.foldl crcByte
    (crcByte (List.foldl crcByte 0xFFFFFFFF pre) b) suf with hF
  set G := crcStep^[8 * suf.length] (crcStep^[8] e) with hG
  have h1 : F ^^^ G = F := by
    have h2 := congrArg (fun x => x ^^^ 0xFFFFFFFF) h
    simpa [Nat.xor_assoc, Nat.xor_self, Nat.xor_zero] using h2
  have h3 : G = 0 := by
    have h4 : F ^^^ G = F ^^^ 0 := by simpa using h1
    exact xor_left_cancel h4
  rw [hG, ← Function.iterate_add_apply] at h3
  exact crcStepN_ne_zero _ he2 he1 h3

theorem crc32_lt (data : List Nat) (h : ∀ b ∈ data, b < 256) :
    crc32 data < u32Mod := by
  unfold crc32
  have key : ∀ (l : List Nat), (∀ b ∈ l, b < 256) → ∀ c, c < u32Mod →
      l.foldl crcByte c < u32Mod := by
    intro l
    induction l with
    | nil => intro _ c hc; simpa
    | cons b rest ih =>
        intro hl c hc
        simp only [List.foldl_cons]
        apply ih (fun x hx => hl x (by simp [hx]))
        apply crcStepN_lt
        have hb : b < u32Mod := by
          have := hl b (by simp)
          simp only [u32Mod]; omega
        simp only [u32Mod] at hc hb ⊢
        exact @Nat.xor_lt_two_pow _ _ 32 (by simpa) (by simpa)
  have h1 := key data h 0xFFFFFFFF (by norm_num [u32Mod])
  simp only [u32Mod] at h1 ⊢
  exact @Nat.xor_lt_two_pow _ _ 32 (by simpa) (by norm_num)

/-! ### Structured codec lemmas -/

theorem recordBody_length (ts n m : Nat) (p : List Nat) :
    (recordBody ts n m p).length = 16 + p.length := by
  simp [recordBody]
  omega

theorem entryEncode_structured (k v : List Nat) (t : Nat)
    (h : k.length + v.length + HeaderSize < u32Mod) :
    entryEncode k v t =
      leBytes 4 (crc32 (recordBody (t % u64Mod) k.length v.length (k ++ v))) ++
        recordBody (t % u64Mod) k.length v.length (k ++ v) := by
  simp only [u32Mod, HeaderSize] at h
  have hk : k.length % u32Mod = k.length :=
    Nat.mod_eq_of_lt (by simp only [u32Mod]; omega)
  have hv : v.length % u32Mod = v.length :=
    Nat.mod_eq_of_lt (by simp only [u32Mod]; omega)
  have hsum : (k.length + v.length) % u32Mod = k.length + v.length :=
    Nat.mod_eq_of_lt (by simp only [u32Mod]; omega)
  have ht : t % u64Mod % u64Mod = t % u64Mod := by
    simp only [u64Mod]; omega
  have hbody : (NewEntry k v t).body =
      recordBody (t % u64Mod) k.length v.length (k ++ v) := by
    simp only [Entry.body, NewEntry, recordBody, hk, hv, hsum, ht]
    rw [show k.length + v.length - k.length = v.length by omega]
    simp only [copyRegion, List.take_length, Nat.sub_self, List.replicate_zero,
      List.append_nil]
    simp [List.append_assoc]
  simp only [entryEncode, Entry.encode, hbody]

theorem decode_structured (c ts n m : Nat) (p : List Nat)
    (hc : c < u32Mod) (hts : ts < u64Mod) (hp : p.length = n + m)
    (hnm : HeaderSize + n + m < u32Mod) :
    decode (GoSlice.ofList (leBytes 4 c ++ recordBody ts n m p)) =
      if crc32 (recordBody ts n m p) ≠ c then .crcMismatch
      else .ok ⟨c, ts, n, m, p.take n, p.drop n⟩ := by
  simp only [u32Mod, HeaderSize] at hnm
  set L := leBytes 4 c ++ recordBody ts n m p with hL
  have hlen : L.length = 20 + (n + m) := by
    simp [hL, recordBody, hp]
    omega
  have e4 : L.drop 4 = recordBody ts n m p := List.drop_left' (by simp)
  have e4x : L.drop 4 = leBytes 8 ts ++ (leBytes 4 n ++ (leBytes 4 m ++ p)) := by
    rw [e4]; simp [recordBody]
  have e12 : L.drop 12 = leBytes 4 n ++ (leBytes 4 m ++ p) := by
    rw [show L = (leBytes 4 c ++ leBytes 8 ts) ++
        (leBytes 4 n ++ (leBytes 4 m ++ p)) by
      simp [hL, recordBody]]
    exact List.drop_left' (by simp)
  have e16 : L.drop 16 = leBytes 4 m ++ p := by
    rw [show L = ((leBytes 4 c ++ leBytes 8 ts) ++ leBytes 4 n) ++
        (leBytes 4 m ++ p) by simp [hL, recordBody]]
    exact List.drop_left' (by simp)
  have e20 : L.drop 20 = p := by
    rw [show L = (((leBytes 4 c ++ leBytes 8 ts) ++ leBytes 4 n) ++
        leBytes 4 m) ++ p by simp [hL, recordBody]]
    exact List.drop_left' (by simp)
  have hcrcStored : sliceU32 (GoSlice.ofList L) 0 = c := by
    simp only [sliceU32, GoSlice.ofList, List.drop_zero]
    rw [show L.take 4 = leBytes 4 c from List.take_left' (by simp)]
    exact fromLE_leBytes 4 c (by simp only [u32Mod] at hc; norm_num; omega)
  have hts2 : fromLE (((GoSlice.ofList L).buf.drop 4).take 8) = ts := by
    simp only [GoSlice.ofList]
    rw [e4x, List.take_left' (by simp)]
    exact fromLE_leBytes 8 ts (by simp only [u64Mod] at hts; norm_num; omega)
  have hks : sliceU32 (GoSlice.ofList L) 12 = n := by
    simp only [sliceU32, GoSlice.ofList]
    rw [e12, List.take_left' (by simp)]
    exact fromLE_leBytes 4 n (by norm_num; omega)
  have hvs : sliceU32 (GoSlice.ofList L) 16 = m := by
    simp only [sliceU32, GoSlice.ofList]
    rw [e16, List.take_left' (by simp)]
    exact fromLE_leBytes 4 m (by norm_num; omega)
  have hsum : (n + m) % u32Mod = n + m :=
    Nat.mod_eq_of_lt (by simp only [u32Mod]; omega)
  have hkeyHi : (20 + n) % u32Mod = 20 + n :=
    Nat.mod_eq_of_lt (by simp only [u32Mod]; omega)
  have hdropKeyHi : L.drop (20 + n) = p.drop n := by
    have h1 : L.drop (20 + n) = (L.drop 20).drop n := by
      rw [List.drop_drop]
      try congr 1
      try omega
    rw [h1, e20]
  have htakeRest : (p.drop n).take (20 + (n + m) - (20 + n)) = p.drop n := by
    have h2 : (p.drop n).length = 20 + (n + m) - (20 + n) := by
      simp [hp]
      omega
    rw [← h2, List.take_length]
  have hcomputed : (L.drop 4).take (20 + (n + m) - 4) = recordBody ts n m p := by
    rw [e4, show 20 + (n + m) - 4 = (recordBody ts n m p).length by
      rw [recordBody_length]; omega]
    exact List.take_length _
  have hlen2 : (GoSlice.ofList L).len = 20 + (n + m) := by
    simp [GoSlice.ofList, hlen]
  have hcap : (GoSlice.ofList L).cap = 20 + (n + m) := by
    simp [GoSlice.cap, GoSlice.ofList, hlen]
  have f20 : (GoSlice.ofList L).buf.drop 20 = p := e20
  have fKeyHi : (GoSlice.ofList L).buf.drop (20 + n) = p.drop n := hdropKeyHi
  have fcrc : ((GoSlice.ofList L).buf.drop 4).take (20 + (n + m) - 4) =
      recordBody ts n m p := hcomputed
  unfold decode
  simp only [HeaderSize, hlen2, hcap, hcrcStored, hks, hvs, hsum, hkeyHi, hts2]
  rw [if_neg (by omega), if_neg (by omega), if_pos (by omega), if_pos (by omega)]
  rw [f20, fKeyHi, htakeRest, fcrc]
  rw [show 20 + n - 20 = n by omega]

theorem crc32_set_ne (B : List Nat) (q j : Nat) (hq : q < B.length)
    (hj : j < 8) :
    crc32 (B.set q (B.getD q 0 ^^^ 1 <<< j)) ≠ crc32 B := by
  rw [List.getD_eq_getElem B 0 hq, Nat.one_shiftLeft]
  rw [List.set_eq_take_append_cons_drop, if_pos hq]
  have hB : B = B.take q ++ B[q] :: B.drop (q + 1) := by
    rw [← List.drop_eq_getElem_cons hq, List.take_append_drop]
  have h2j : (2 : Nat) ^ j < u32Mod := by
    have h2 : (2 : Nat) ^ j ≤ 2 ^ 7 := Nat.pow_le_pow_right (by norm_num) (by omega)
    simp only [u32Mod]
    omega
  have hflip := crc32_flip_ne (B.take q) (B.drop (q + 1)) (B[q]) (2 ^ j)
    (Nat.pos_iff_ne_zero.mp (Nat.two_pow_pos j)) h2j
  rw [← hB] at hflip
  exact hflip

theorem bytes_xor_lt (a b : Nat) (ha : a < 256) (hb : b < 256) :
    a ^^^ b < 256 := by
  have := @Nat.xor_lt_two_pow a b 8 (by norm_num; omega) (by norm_num; omega)
  norm_num at this
  omega

/-- C7 (amended): flipping any single bit of an encoded record inside the
timestamp, key, or value bytes — i.e. outside both the CRC field (bytes
0..4) and the two size fields (bytes 12..20) — makes decode fail with
CrcMismatch. -/
theorem c7_crc_detects_nonsize_flip (k v : List Nat) (t i j : Nat)
    (hk : ∀ b ∈ k, b < 256) (hv : ∀ b ∈ v, b < 256)
    (hsize : k.length + v.length + HeaderSize < u32Mod) (hj : j < 8)
    (hpos : (4 ≤ i ∧ i < 12) ∨
      (20 ≤ i ∧ i < 20 + k.length + v.length)) :
    decode (GoSlice.ofList (flipBit (entryEncode k v t) i j)) =
      .crcMismatch := by
  set n := k.length with hn
  set m := v.length with hm
  set B := recordBody (t % u64Mod) n m (k ++ v) with hB
  have hBlen : B.length = 16 + (n + m) := by
    rw [hB, recordBody_length]
    simp
  have henc := entryEncode_structured k v t hsize
  set C := crc32 B with hC
  have hBbytes : ∀ b ∈ B, b < 256 := by
    intro b hb
    rw [hB] at hb
    simp only [recordBody, List.mem_append] at hb
    rcases hb with ((h1 | h2) | h3) | h4 | h5
    · exact leBytes_mem_lt _ _ _ h1
    · exact leBytes_mem_lt _ _ _ h2
    · exact leBytes_mem_lt _ _ _ h3
    · exact hk _ h4
    · exact hv _ h5
  have hClt : C < u32Mod := crc32_lt B hBbytes
  have hi4 : 4 ≤ i := by rcases hpos with ⟨h, _⟩ | ⟨h, _⟩ <;> omega
  set q := i - 4 with hq
  have hqlt : q < B.length := by
    rw [hBlen]
    rcases hpos with ⟨h1, h2⟩ | ⟨h1, h2⟩ <;> omega
  set x := B.getD q 0 ^^^ 1 <<< j with hx
  have hxlt : x < 256 := by
    rw [hx]
    have hb0 : B.getD q 0 < 256 := by
      rw [List.getD_eq_getElem B 0 hqlt]
      exact hBbytes _ (List.getElem_mem hqlt)
    have h2j : (1 <<< j) < 256 := by
      rw [Nat.one_shiftLeft]
      have h2 : (2 : Nat) ^ j ≤ 2 ^ 7 :=
        Nat.pow_le_pow_right (by norm_num) (by omega)
      omega
    exact bytes_xor_lt _ _ hb0 h2j
  have hflipbuf : flipBit (entryEncode k v t) i j = leBytes 4 C ++ B.set q x := by
    rw [flipBit, henc]
    have hgd : (leBytes 4 C ++ B).getD i 0 = B.getD q 0 := by
      rw [List.getD_append_right _ _ _ _ (by simp; omega)]
      simp [hq]
    rw [hgd, List.set_append, if_neg (by simp; omega)]
    simp only [leBytes_length]
  rw [hflipbuf]
  have hcrcne : crc32 (B.set q x) ≠ C := by
    rw [hx, hC]
    exact crc32_set_ne B q j hqlt hj
  have hnm32 : HeaderSize + n + m < u32Mod := by
    simp only [HeaderSize, u32Mod] at hsize ⊢
    omega
  rcases hpos with ⟨hge, hlt⟩ | ⟨hge, hlt⟩
  · -- the flip lands in the timestamp bytes
    have hq8 : q < 8 := by omega
    have hset : B.set q x =
        (leBytes 8 (t % u64Mod)).set q x ++ leBytes 4 n ++ leBytes 4 m ++
          (k ++ v) := by
      rw [hB]
      simp only [recordBody]
      rw [List.set_append, if_pos (by simp; omega)]
      rw [List.set_append, if_pos (by simp; omega)]
      rw [List.set_append, if_pos (by simp; omega)]
    set A8 := (leBytes 8 (t % u64Mod)).set q x with hA8
    have hA8len : A8.length = 8 := by simp [hA8]
    have hA8bytes : ∀ b ∈ A8, b < 256 := by
      intro b hbmem
      rw [hA8] at hbmem
      rcases List.mem_or_eq_of_mem_set hbmem with h | h
      · exact leBytes_mem_lt _ _ _ h
      · rw [h]; exact hxlt
    set ts2 := fromLE A8 with hts2
    have hA8eq : A8 = leBytes 8 ts2 := by
      have h0 := leBytes_fromLE A8 hA8bytes
      rw [hA8len] at h0
      rw [hts2, h0]
    have hts2lt : ts2 < u64Mod := by
      have h0 := fromLE_lt A8 hA8bytes
      rw [hA8len] at h0
      rw [hts2]
      simp only [u64Mod]
      norm_num at h0
      omega
    have hsetB : B.set q x = recordBody ts2 n m (k ++ v) := by
      rw [hset, hA8eq]
      simp [recordBody]
    rw [hsetB, decode_structured C ts2 n m (k ++ v) hClt hts2lt (by simp) hnm32]
    rw [if_pos (by rw [← hsetB]; exact hcrcne)]
  · -- the flip lands in the key/value payload bytes
    have hq16 : 16 ≤ q := by omega
    have hset : B.set q x =
        recordBody (t % u64Mod) n m ((k ++ v).set (q - 16) x) := by
      rw [hB]
      simp only [recordBody]
      rw [List.set_append, if_neg (by simp; omega)]
      simp only [List.length_append, leBytes_length]
    have htlt : t % u64Mod < u64Mod := Nat.mod_lt t (by simp only [u64Mod]; norm_num)
    rw [hset, decode_structured C (t % u64Mod) n m ((k ++ v).set (q - 16) x)
      hClt htlt (by simp) hnm32]
    rw [if_pos (by rw [← hset]; exact hcrcne)]

/-- C7 witness: the amended theorem applied to the record for ("a","b") at
timestamp 5, flipping bit 3 of byte 21 (the value byte). -/
theorem c7_crc_detects_nonsize_flip_witness :
    decode (GoSlice.ofList (flipBit (entryEncode [97] [98] 5) 21 3)) =
      .crcMismatch :=
  c7_crc_detects_nonsize_flip [97] [98] 5 21 3 (by decide) (by decide)
    (by decide) (by decide) (by decide)

/-! ### C1 — round-trip through a sealed segment -/

set_option maxRecDepth 100000 in
/-- C1: the claim fails on the code.  DB.rotateActiveFile closes the file
it seals and stores the closed handle in olderFiles, so after one
rotation, `get` of a key whose record lies in the sealed segment fails
with ErrFileClosed instead of returning the put value; the key written
after the rotation (living in the new active file) still reads back.
Failing run: segment limit 1 byte, put("a","1"), put("b","2") (the second
put rotates), then get("a"). -/
theorem c1_sealed_segment_get_fails :
    resGet c1Run [97] = .err .fileClosed ∧ resGet c1Run [98] = .ok [50] := by
  decide

/-! ### C2 — apply publishes a put event -/

/-- C2: the claim fails on the code.  BitcaskFSM.Apply of a committed put
invokes only engine.Put: the event list published during apply is empty,
so a subscriber with the empty prefix (which matches every key) is offered
no event at all — while WatchHub.NotifyPut, the intended hook (its own
comment says it should be called from the FSM apply path), would have
enqueued exactly one put event on that subscriber's queue. -/
theorem c2_apply_publishes_no_event :
    (fsmApply (DB.openFresh 67108864) (.put [120] [118]) 0).snd = [] ∧
    hubNotifyPut [⟨[], 1000, [], false⟩] [120] [118] =
      [⟨[⟨.put, [120], [118], []⟩], 1000, [], false⟩] := by
  decide

/-! ### C4 — tier residency uniqueness -/

/-- C4: the claim fails on the code.  A get that hits a key in the cold
tier and admits it to warm (global frequency ≥ 2) inserts into warm
without removing the cold entry: after put("a") (cold, frequency 1) and
one get("a") (frequency 2, admitted to warm) the key resides in two tiers
at a quiescent moment. -/
theorem c4_cold_admission_leaves_two_tiers :
    c4State0.tierCount [97] = 1 ∧
    (c4State0.get [97]).fst = some ⟨0, 0, 0⟩ ∧
    c4State1.tierCount [97] = 2 := by
  decide

/-! ### C5 — cold-tier sortedness and lookup -/

/-- C5: the claim fails on the code.  addToCold appends without sorting
(the source comment itself says the sorting logic is omitted), so
put("b") then put("a") leaves the sparse index in the order [b, a], which
is not byte-lexicographically sorted; the binary search of getFromCold
then misses "a" even though its entry is present in cold, and get returns
absent. -/
theorem c5_cold_unsorted_binary_search_misses :
    c5State.cold.map (fun e => e.key) = [[98], [97]] ∧
    coldSorted c5State = false ∧
    (c5State.cold.filter fun e => e.key == [97]).length = 1 ∧
    (c5State.get [97]).fst = none := by
  decide

/-! ### C6 — decode error classification -/

/-- C6: the claim fails on the code.  For the 20-byte input whose header
declares key_size = value_size = 2^31, the real-arithmetic length check of
the claim (20 < 20 + 2^32) demands InvalidRecord, but Decode adds the
sizes in uint32 (the sum wraps to 0), passes its length check, and then
panics slicing data[20 : 20+key_size] (bound 2147483668 against a backing
array of 20 bytes). -/
theorem c6_size_overflow_panics :
    c6Input.length = HeaderSize ∧ decode (GoSlice.ofList c6Input) = .panic := by
  decide

/-! ### C7 — CRC detection of single-bit corruption -/

/-- C7 counterexample: flipping a bit outside the CRC field does not always
produce CrcMismatch.  Flipping bit 1 of byte 12 (the low byte of key_size)
of the encoded record for ("a","b") at timestamp 5 raises the declared
key size from 1 to 3, so the length validation fails first and decode
returns InvalidRecord, not CrcMismatch. -/
theorem c7_size_field_flip_gives_invalid :
    decode (GoSlice.ofList (flipBit (entryEncode [97] [98] 5) 12 1)) =
      .invalidEntry := by
  decide

/-! ### C8 — hybrid-index delete -/

theorem removeFromCold_false_eq (hi : HybridIndex) (k : Key) (hi2 : HybridIndex)
    (h : hi.removeFromCold k = (false, hi2)) : hi2 = hi := by
  simp only [HybridIndex.removeFromCold] at h
  split at h
  · exact absurd (congrArg Prod.fst h) (by simp)
  · exact (congrArg Prod.snd h).symm

theorem removeFromCold_stats (hi : HybridIndex) (k : Key) :
    (hi.removeFromCold k).snd.stats = hi.stats := by
  simp only [HybridIndex.removeFromCold]
  split <;> rfl

/-- C8 counterexample, refuting two parts of the claim.  First: a delete
that hits a tier does not clear the global frequency map — with "c"
resident in cold and a stats entry of 1, Delete returns true but the
stats entry survives.  Second: Delete does not return true on every tier
that holds k — with cold the unsorted [b, a], the binary-search probe for
"a" lands on "b" and misses, so Delete("a") returns false, clears the
frequency entry and leaves "a" resident in cold. -/
theorem c8_delete_original_claim_fails :
    ((c8State.delete [99]).fst = true ∧
      alGet (c8State.delete [99]).snd.stats [99] = some 1) ∧
    ((c8MissState.cold.filter fun e => e.key == [97]).length = 1 ∧
      (c8MissState.delete [97]).fst = false ∧
      alGet (c8MissState.delete [97]).snd.stats [97] = none ∧
      ((c8MissState.delete [97]).snd.cold.filter
        fun e => e.key == [97]).length = 1) := by
  decide

/-- C8 (amended): Delete attempts removal from hot, then warm, then cold,
and returns true exactly when the hot lookup, the warm lookup or the cold
binary-search probe succeeds (a hot hit erases only the hot binding); the
cold probe is a binary search over a sparse index that addToCold leaves
unsorted, so it can miss a key cold still holds.  The global frequency
entry is cleared — and the total-key counter decremented — exactly when
Delete returns false, i.e. when all three attempts miss; a successful
delete leaves the stats map untouched. -/
theorem c8_delete_order_and_stats (hi : HybridIndex) (k : Key) :
    ((hi.delete k).fst =
      ((alGet hi.hot k).isSome || (alGet hi.warm k).isSome ||
        (hi.removeFromCold k).fst)) ∧
    ((alGet hi.hot k).isSome = true →
      hi.delete k = (true, { hi with hot := alErase hi.hot k })) ∧
    ((hi.delete k).fst = true → (hi.delete k).snd.stats = hi.stats) ∧
    ((hi.delete k).fst = false →
      (hi.delete k).snd.stats = alErase hi.stats k ∧
      (hi.delete k).snd.totalKeys = hi.totalKeys - 1) := by
  unfold HybridIndex.delete
  by_cases h1 : (alGet hi.hot k).isSome
  · simp [h1]
  · by_cases h2 : (alGet hi.warm k).isSome
    · simp [h1, h2]
    · rcases hr : hi.removeFromCold k with ⟨b, hi2⟩
      cases b
      · have heq : hi2 = hi := removeFromCold_false_eq hi k hi2 hr
        simp [h1, h2, hr, heq]
      · have hst := removeFromCold_stats hi k
        rw [hr] at hst
        simp only at hst
        simp [h1, h2, hr, hst]

/-- C8 witness: the amended theorem applied to the concrete one-key state:
delete returns true and leaves the stats map unchanged. -/
theorem c8_delete_order_and_stats_witness :
    (c8State.delete [99]).fst = true ∧
    (c8State.delete [99]).snd.stats = c8State.stats :=
  ⟨by decide, (c8_delete_order_and_stats c8State [99]).2.2.1 (by decide)⟩

/-! ### C10 — ReadEntry is total at and past end of file -/

/-- ReadEntry at or past the end of an open file fails with
ErrInvalidEntry (shared by the recovery-scan base case and claim C10). -/
theorem readEntry_past_eof (df : DataFile) (offset : Nat)
    (hopen : df.closed = false) (heof : df.content.length ≤ offset) :
    df.readEntry offset = .err .invalidEntry := by
  have h1 : df.content.length - offset = 0 := Nat.sub_eq_zero_of_le heof
  have h0 : df.content.drop offset = [] := by
    apply List.drop_eq_nil_of_le heof
  unfold DataFile.readEntry DataFile.read
  simp [hopen, h1, h0, sliceU32, decode, HeaderSize, fromLE, u32Mod]

/-- C10: ReadEntry at or past the end of an open file returns
ErrInvalidEntry rather than a record, and in particular never panics: the
EOF read hands back a zero-length slice whose 20-byte backing buffer keeps
header[12:16] legal (key and value sizes parse as 0 from the zero fill),
and the follow-up 20-byte read feeds Decode a zero-length slice that fails
its first length check. -/
theorem c10_readEntry_eof (df : DataFile) (offset : Nat)
    (hopen : df.closed = false) (heof : df.content.length ≤ offset) :
    df.readEntry offset = .err .invalidEntry :=
  readEntry_past_eof df offset hopen heof

/-- C10 witness: an empty open file, read at offset 0. -/
theorem c10_readEntry_eof_witness :
    (⟨0, [], false⟩ : DataFile).readEntry 0 = .err .invalidEntry :=
  c10_readEntry_eof ⟨0, [], false⟩ 0 rfl (by decide)

/-! ### Well-formed records: encode/decode round trip inside a segment -/

theorem encode_wf_structured (e : Entry) (hw : WFRecord e) :
    e.encode =
      leBytes 4 (crc32 (recordBody e.timestamp e.keySize e.valueSize
        (e.key ++ e.value))) ++
      recordBody e.timestamp e.keySize e.valueSize (e.key ++ e.value) := by
  obtain ⟨hks, hvs, hts, hsz, _, _⟩ := hw
  simp only [u32Mod, HeaderSize] at hsz
  have h1 : e.keySize % u32Mod = e.keySize :=
    Nat.mod_eq_of_lt (by simp only [u32Mod]; omega)
  have h2 : e.valueSize % u32Mod = e.valueSize :=
    Nat.mod_eq_of_lt (by simp only [u32Mod]; omega)
  have h3 : (e.keySize + e.valueSize) % u32Mod = e.keySize + e.valueSize :=
    Nat.mod_eq_of_lt (by simp only [u32Mod]; omega)
  have h4 : e.timestamp % u64Mod = e.timestamp := Nat.mod_eq_of_lt hts
  have hbody : e.body =
      recordBody e.timestamp e.keySize e.valueSize (e.key ++ e.value) := by
    simp only [Entry.body, recordBody, h1, h2, h3, h4]
    rw [show e.keySize + e.valueSize - e.keySize = e.valueSize by omega]
    rw [hks, hvs]
    simp [copyRegion, List.append_assoc]
  simp only [Entry.encode, hbody]

theorem encode_length_wf (e : Entry) (hw : WFRecord e) :
    e.encode.length = 20 + (e.keySize + e.valueSize) := by
  rw [encode_wf_structured e hw]
  simp only [List.length_append, leBytes_length, recordBody_length]
  have hks := hw.1
  have hvs := hw.2.1
  simp [hks, hvs]
  omega

theorem size_wf (e : Entry) (hw : WFRecord e) :
    e.size = 20 + (e.keySize + e.valueSize) := by
  obtain ⟨hks, hvs, _, hsz, _, _⟩ := hw
  simp only [Entry.size, HeaderSize, u32Mod] at hsz ⊢
  omega

theorem recordBody_bytes (e : Entry) (hw : WFRecord e) :
    ∀ b ∈ recordBody e.timestamp e.keySize e.valueSize (e.key ++ e.value),
      b < 256 := by
  obtain ⟨_, _, _, _, hkb, hvb⟩ := hw
  intro b hb
  simp only [recordBody, List.mem_append] at hb
  rcases hb with ((h1 | h2) | h3) | h4 | h5
  · exact leBytes_mem_lt _ _ _ h1
  · exact leBytes_mem_lt _ _ _ h2
  · exact leBytes_mem_lt _ _ _ h3
  · exact hkb _ h4
  · exact hvb _ h5

theorem decode_wf (e : Entry) (hw : WFRecord e) :
    decode (GoSlice.ofList e.encode) =
      .ok { e with crc := crc32 (recordBody e.timestamp e.keySize e.valueSize
        (e.key ++ e.value)) } := by
  have hc : crc32 (recordBody e.timestamp e.keySize e.valueSize
      (e.key ++ e.value)) < u32Mod := crc32_lt _ (recordBody_bytes e hw)
  have hp : (e.key ++ e.value).length = e.keySize + e.valueSize := by
    have hks := hw.1
    have hvs := hw.2.1
    simp only [List.length_append]
    omega
  have hnm : HeaderSize + e.keySize + e.valueSize < u32Mod := by
    have hks := hw.1
    have hvs := hw.2.1
    have hsz := hw.2.2.2.1
    simp only [HeaderSize, u32Mod] at hsz ⊢
    omega
  rw [encode_wf_structured e hw,
    decode_structured _ _ _ _ _ hc hw.2.2.1 hp hnm]
  rw [if_neg (by simp)]
  have htake : (e.key ++ e.value).take e.keySize = e.key := by
    rw [hw.1]
    exact List.take_left _ _
  have hdropv : (e.key ++ e.value).drop e.keySize = e.value := by
    rw [hw.1]
    exact List.drop_left _ _
  rw [htake, hdropv]

/-- ReadEntry at the offset of a well-formed record inside an open segment
returns that record (with the stored CRC filled in): the header read parses
the true sizes, the follow-up read returns exactly the record's bytes, and
decode succeeds. -/
theorem readEntry_at (df : DataFile) (pre suf : List Nat) (e : Entry)
    (hopen : df.closed = false) (hw : WFRecord e)
    (hcontent : df.content = pre ++ (e.encode ++ suf)) :
    df.readEntry pre.length =
      .ok { e with crc := crc32 (recordBody e.timestamp e.keySize e.valueSize
        (e.key ++ e.value)) } := by
  have henc := encode_wf_structured e hw
  have hencl : e.encode.length = 20 + (e.keySize + e.valueSize) :=
    encode_length_wf e hw
  have hsz32 : e.keySize + e.valueSize + 20 < 4294967296 := by
    have hks := hw.1
    have hvs := hw.2.1
    have hsz := hw.2.2.2.1
    simp only [u32Mod, HeaderSize] at hsz
    omega
  have hdrop : df.content.drop pre.length = e.encode ++ suf := by
    rw [hcontent]
    exact List.drop_left _ _
  have hcl : df.content.length = pre.length + (e.encode.length + suf.length) := by
    rw [hcontent]
    simp
  have havail : df.content.length - pre.length = e.encode.length + suf.length := by
    omega
  have hread1 : df.read pre.length HeaderSize =
      .ok ⟨(e.encode ++ suf).take 20, 20⟩ := by
    unfold DataFile.read
    simp only [hopen, HeaderSize, havail, hdrop, Bool.false_eq_true, if_false]
    rw [show min 20 (e.encode.length + suf.length) = 20 by omega]
    rw [if_neg (by simp)]
    simp
  have e12 : (e.encode ++ suf).drop 12 =
      leBytes 4 e.keySize ++ (leBytes 4 e.valueSize ++ ((e.key ++ e.value) ++ suf)) := by
    rw [henc]
    rw [show (leBytes 4 (crc32 (recordBody e.timestamp e.keySize e.valueSize
        (e.key ++ e.value))) ++ recordBody e.timestamp e.keySize e.valueSize
        (e.key ++ e.value)) ++ suf =
      (leBytes 4 (crc32 (recordBody e.timestamp e.keySize e.valueSize
        (e.key ++ e.value))) ++ leBytes 8 e.timestamp) ++
      (leBytes 4 e.keySize ++ (leBytes 4 e.valueSize ++ ((e.key ++ e.value) ++ suf)))
      by simp [recordBody]]
    exact List.drop_left' (by simp)
  have e16 : (e.encode ++ suf).drop 16 =
      leBytes 4 e.valueSize ++ ((e.key ++ e.value) ++ suf) := by
    rw [henc]
    rw [show (leBytes 4 (crc32 (recordBody e.timestamp e.keySize e.valueSize
        (e.key ++ e.value))) ++ recordBody e.timestamp e.keySize e.valueSize
        (e.key ++ e.value)) ++ suf =
      ((leBytes 4 (crc32 (recordBody e.timestamp e.keySize e.valueSize
        (e.key ++ e.value))) ++ leBytes 8 e.timestamp) ++ leBytes 4 e.keySize) ++
      (leBytes 4 e.valueSize ++ ((e.key ++ e.value) ++ suf))
      by simp [recordBody]]
    exact List.drop_left' (by simp)
  have hks : sliceU32 ⟨(e.encode ++ suf).take 20, 20⟩ 12 = e.keySize := by
    simp only [sliceU32]
    rw [List.drop_take, List.take_take]
    rw [show (4 : Nat) ⊓ (20 - 12) = 4 by norm_num]
    rw [e12, List.take_left' (by simp)]
    exact fromLE_leBytes 4 e.keySize (by norm_num; omega)
  have hvs : sliceU32 ⟨(e.encode ++ suf).take 20, 20⟩ 16 = e.valueSize := by
    simp only [sliceU32]
    rw [List.drop_take, List.take_take]
    rw [show (4 : Nat) ⊓ (20 - 16) = 4 by norm_num]
    rw [e16, List.take_left' (by simp)]
    exact fromLE_leBytes 4 e.valueSize (by norm_num; omega)
  have hsizeArg :
      (HeaderSize + (e.keySize + e.valueSize) % u32Mod) % u32Mod =
        20 + (e.keySize + e.valueSize) := by
    simp only [HeaderSize, u32Mod]
    omega
  have hread2 : df.read pre.length (20 + (e.keySize + e.valueSize)) =
      .ok ⟨e.encode, 20 + (e.keySize + e.valueSize)⟩ := by
    unfold DataFile.read
    simp only [hopen, havail, hdrop, Bool.false_eq_true, if_false]
    rw [show min (20 + (e.keySize + e.valueSize))
        (e.encode.length + suf.length) = 20 + (e.keySize + e.valueSize) by omega]
    rw [if_neg (by simp)]
    rw [show (e.encode ++ suf).take (20 + (e.keySize + e.valueSize)) = e.encode by
      rw [← hencl]
      exact List.take_left _ _]
    simp
  have hslice : (⟨e.encode, 20 + (e.keySize + e.valueSize)⟩ : GoSlice) =
      GoSlice.ofList e.encode := by
    rw [GoSlice.ofList, hencl]
  unfold DataFile.readEntry
  rw [hread1]
  simp only [hks, hvs, hsizeArg]
  rw [hread2, hslice]
  simp only [decode_wf e hw]

@[simp] theorem encJoin_nil : encJoin [] = [] := rfl

@[simp] theorem encJoin_cons (e : Entry) (g : List Entry) :
    encJoin (e :: g) = e.encode ++ encJoin g := by
  simp [encJoin]

/-- The recovery scan of one open segment holding well-formed records
(starting after a prefix it has already consumed) replays exactly those
records, consing each (key, location) onto the index and each key onto the
bloom filter. -/
theorem scanLoop_spec (fid : Nat) (content : List Nat) (g : List Entry)
    (pre : List Nat) (hwf : ∀ e ∈ g, WFRecord e)
    (hcontent : content = pre ++ encJoin g) :
    ∀ (fuel : Nat), g.length + 1 ≤ fuel → ∀ (idx : Index) (bloom : Bloom),
    scanLoop fuel ⟨fid, content, false⟩ content.length pre.length idx bloom =
      .ok ((scanEnt fid pre.length g).reverse.map (fun p => (p.1.key, p.2)) ++ idx,
           (scanEnt fid pre.length g).reverse.map (fun p => p.1.key) ++ bloom) := by
  induction g generalizing pre with
  | nil =>
      intro fuel hfuel idx bloom
      cases fuel with
      | zero => omega
      | succ f =>
          have hcp : content = pre := by simpa using hcontent
          simp only [scanLoop]
          rw [readEntry_past_eof _ _ rfl (by rw [hcp])]
          rw [if_pos (by rw [hcp]; omega)]
          simp [scanEnt]
  | cons e rs ih =>
      intro fuel hfuel idx bloom
      cases fuel with
      | zero => omega
      | succ f =>
          have hwfe : WFRecord e := hwf e (by simp)
          have hcontent2 : content = pre ++ (e.encode ++ encJoin rs) := by
            rw [hcontent]
            simp [List.append_assoc]
          simp only [scanLoop]
          rw [readEntry_at ⟨fid, content, false⟩ pre (encJoin rs) e rfl hwfe
            hcontent2]
          have harg : (pre ++ e.encode).length = pre.length + e.size := by
            simp [size_wf e hwfe, encode_length_wf e hwfe]
          have hcontent3 : content = (pre ++ e.encode) ++ encJoin rs := by
            rw [hcontent2, List.append_assoc]
          have hrec := ih (pre ++ e.encode)
            (fun x hx => hwf x (List.mem_cons_of_mem e hx)) hcontent3 f
            (by simp at hfuel; omega)
            (indexPut idx e.key ⟨fid, pre.length, e.size⟩)
            (bloomAdd bloom e.key)
          rw [harg] at hrec
          simp only [Entry.size, indexPut, bloomAdd] at hrec ⊢
          rw [hrec]
          simp [scanEnt, Entry.size, List.append_assoc]

theorem encJoin_length_ge (g : List Entry) (hwf : ∀ e ∈ g, WFRecord e) :
    g.length ≤ (encJoin g).length := by
  induction g with
  | nil => simp
  | cons e rs ih =>
      have h1 := encode_length_wf e (hwf e (by simp))
      have h2 := ih fun x hx => hwf x (List.mem_cons_of_mem e hx)
      simp only [encJoin_cons, List.length_append, List.length_cons]
      omega

theorem bootFile_spec (fid : Nat) (g : List Entry)
    (hwf : ∀ e ∈ g, WFRecord e) (idx : Index) (bloom : Bloom) :
    bootFile (fid, encJoin g) idx bloom =
      .ok ((scanEnt fid 0 g).reverse.map (fun p => (p.1.key, p.2)) ++ idx,
           (scanEnt fid 0 g).reverse.map (fun p => p.1.key) ++ bloom) := by
  unfold bootFile
  have h := scanLoop_spec fid (encJoin g) g [] hwf (by simp)
    ((encJoin g).length + 1) (by have := encJoin_length_ge g hwf; omega)
    idx bloom
  simpa using h

theorem bootFiles_spec (G : List (Nat × List Entry))
    (hwf : ∀ p ∈ G, ∀ e ∈ p.snd, WFRecord e) :
    ∀ (idx : Index) (bloom : Bloom),
    bootFiles (G.map fun p => (p.fst, encJoin p.snd)) idx bloom =
      .ok ((allEnt G).reverse.map (fun p => (p.1.key, p.2)) ++ idx,
           (allEnt G).reverse.map (fun p => p.1.key) ++ bloom) := by
  induction G with
  | nil =>
      intro idx bloom
      simp [bootFiles, allEnt]
  | cons p G ih =>
      intro idx bloom
      simp only [List.map_cons, bootFiles]
      rw [bootFile_spec p.fst p.snd (hwf p (by simp)) idx bloom]
      have hih := ih fun q hq => hwf q (by simp [hq])
      simp only [hih]
      simp [allEnt, List.reverse_append, List.map_append, List.append_assoc]

/-! ### Lookup in a replayed index: the last binding wins -/

theorem lastAssoc_from {α : Type} (ps : List (Key × α)) (k : Key)
    (a : Option α) :
    ps.foldl (fun acc p => if p.fst = k then some p.snd else acc) a =
      (lastAssoc ps k).or a := by
  induction ps generalizing a with
  | nil => simp [lastAssoc, Option.or]
  | cons p rest ih =>
      simp only [lastAssoc, List.foldl_cons] at ih ⊢
      conv_lhs => rw [ih]
      conv_rhs => rw [ih]
      rcases hl : rest.foldl
          (fun acc p => if p.fst = k then some p.snd else acc) none with _ | x
      · rw [hl]
        by_cases hp : p.fst = k <;> simp [hp, Option.or]
      · rw [hl]
        simp [Option.or]

theorem lastAssoc_cons {α : Type} (p : Key × α) (rest : List (Key × α))
    (k : Key) :
    lastAssoc (p :: rest) k =
      (lastAssoc rest k).or (if p.fst = k then some p.snd else none) := by
  simp only [lastAssoc, List.foldl_cons]
  rw [lastAssoc_from]
  rfl

theorem indexGet_reverse (ps : List (Key × Position)) (k : Key) :
    indexGet ps.reverse k = lastAssoc ps k := by
  induction ps with
  | nil => simp [indexGet, lastAssoc]
  | cons p rest ih =>
      simp only [List.reverse_cons, indexGet] at ih ⊢
      rw [List.lookup_append, ih, lastAssoc_cons]
      rcases lastAssoc rest k with _ | x
      · rcases p with ⟨pk, pv⟩
        by_cases hp : pk = k
        · subst hp
          simp [List.lookup_cons, Option.or]
        · have hkp : (k == pk) = false := by
            simp only [beq_eq_false_iff_ne, ne_eq]
            exact fun h => hp h.symm
          simp [List.lookup_cons, hkp, hp, Option.or]
      · simp [Option.or]

theorem lastFor_proj {β : Type} (k : Key) (f : Entry × Position → β) :
    ∀ (ps : List (Entry × Position)) (a : Option (Entry × Position)),
    ps.foldl (fun acc p => if p.fst.key = k then some (f p) else acc) (a.map f) =
      (ps.foldl (fun acc p => if p.fst.key = k then some p else acc) a).map f := by
  intro ps
  induction ps with
  | nil => intro a; rfl
  | cons p rest ih =>
      intro a
      simp only [List.foldl_cons]
      by_cases h : p.fst.key = k
      · rw [if_pos h, if_pos h, show some (f p) = (some p).map f from rfl, ih]
      · rw [if_neg h, if_neg h, ih]

theorem lastAssoc_map_key (ps : List (Entry × Position)) (k : Key) :
    lastAssoc (ps.map fun p => (p.fst.key, p.snd)) k =
      (lastFor ps k).map Prod.snd := by
  simp only [lastAssoc, lastFor, List.foldl_map]
  have h := lastFor_proj k Prod.snd ps none
  simpa using h

theorem lastEnt_map_fst (ps : List (Entry × Position)) (k : Key) :
    lastEnt (ps.map Prod.fst) k = (lastFor ps k).map Prod.fst := by
  simp only [lastEnt, lastFor, List.foldl_map]
  have h := lastFor_proj k Prod.fst ps none
  simpa using h

theorem lastFor_mem_aux (k : Key) :
    ∀ (ps : List (Entry × Position)) (a : Option (Entry × Position))
      (x : Entry × Position),
    ps.foldl (fun acc p => if p.fst.key = k then some p else acc) a = some x →
      a = some x ∨ (x ∈ ps ∧ x.fst.key = k) := by
  intro ps
  induction ps with
  | nil => intro a x h; exact Or.inl h
  | cons p rest ih =>
      intro a x h
      simp only [List.foldl_cons] at h
      rcases ih _ x h with h2 | h2
      · by_cases hp : p.fst.key = k
        · rw [if_pos hp] at h2
          right
          refine ⟨?_, ?_⟩
          · rw [show x = p from (Option.some_inj.mp h2).symm]
            exact List.mem_cons_self p rest
          · rw [show x = p from (Option.some_inj.mp h2).symm]
            exact hp
        · rw [if_neg hp] at h2
          exact Or.inl h2
      · exact Or.inr ⟨List.mem_cons_of_mem p h2.1, h2.2⟩

theorem lastFor_mem (ps : List (Entry × Position)) (k : Key)
    (x : Entry × Position) (h : lastFor ps k = some x) :
    x ∈ ps ∧ x.fst.key = k := by
  rcases lastFor_mem_aux k ps none x h with h2 | h2
  · exact absurd h2 (by simp)
  · exact h2

theorem lastEnt_concat (l : List Entry) (e : Entry) (k : Key) :
    lastEnt (l ++ [e]) k = if e.key = k then some e else lastEnt l k := by
  simp only [lastEnt, List.foldl_append, List.foldl_cons, List.foldl_nil]

theorem lastPut_concat (ops : List Op) (op : Op) (k : Key) :
    lastPut (ops ++ [op]) k =
      match op with
      | .put k2 v _ => if k2 = k then some v else lastPut ops k
      | .del _ => lastPut ops k := by
  cases op <;>
    simp only [lastPut, List.foldl_append, List.foldl_cons, List.foldl_nil]

theorem opsEntries_append (a b : List Op) :
    opsEntries (a ++ b) = opsEntries a ++ opsEntries b := by
  simp [opsEntries, List.filterMap_append]

@[simp] theorem NewEntry_key (k v : List Nat) (t : Nat) :
    (NewEntry k v t).key = k := rfl

@[simp] theorem NewEntry_value (k v : List Nat) (t : Nat) :
    (NewEntry k v t).value = v := rfl

theorem lastPut_lastEnt (ops : List Op) (k : Key) (v : List Nat)
    (h : lastPut ops k = some v) :
    ∃ t, lastEnt (opsEntries ops) k = some (NewEntry k v t) := by
  induction ops using List.reverseRecOn with
  | nil => exact absurd h (by simp [lastPut])
  | append_singleton xs op ih =>
      rw [lastPut_concat] at h
      cases op with
      | put k2 v2 t2 =>
          simp only at h
          rw [opsEntries_append]
          by_cases hk : k2 = k
          · rw [if_pos hk] at h
            refine ⟨t2, ?_⟩
            rw [show opsEntries [Op.put k2 v2 t2] = [NewEntry k2 v2 t2] from rfl,
              lastEnt_concat, if_pos (by simp [hk])]
            rw [Option.some_inj.mp h, hk]
          · rw [if_neg hk] at h
            obtain ⟨t, ht⟩ := ih h
            refine ⟨t, ?_⟩
            rw [show opsEntries [Op.put k2 v2 t2] = [NewEntry k2 v2 t2] from rfl,
              lastEnt_concat, if_neg (by simpa using hk), ht]
      | del k2 =>
          simp only at h
          obtain ⟨t, ht⟩ := ih h
          refine ⟨t, ?_⟩
          rw [opsEntries_append,
            show opsEntries [Op.del k2] = [] from rfl, List.append_nil, ht]

theorem NewEntry_wf (k v : List Nat) (t : Nat)
    (hsz : k.length + v.length + HeaderSize < u32Mod)
    (hkb : ∀ b ∈ k, b < 256) (hvb : ∀ b ∈ v, b < 256) :
    WFRecord (NewEntry k v t) := by
  refine ⟨?_, ?_, ?_, ?_, hkb, hvb⟩
  · exact Nat.mod_eq_of_lt (by simp only [HeaderSize] at hsz; omega)
  · exact Nat.mod_eq_of_lt (by simp only [HeaderSize] at hsz; omega)
  · exact Nat.mod_lt _ (by norm_num [u64Mod])
  · exact hsz

theorem opsEntries_wf (ops : List Op) (hsz : sizesOK ops = true) :
    ∀ e ∈ opsEntries ops, WFRecord e := by
  intro e he
  obtain ⟨op, hop, hfe⟩ := List.mem_filterMap.mp he
  have hs : opSmall op = true := by
    rw [sizesOK, List.all_eq_true] at hsz
    exact hsz op hop
  cases op with
  | put k2 v2 t2 =>
      simp only [Option.some_inj] at hfe
      simp only [opSmall, Bool.and_eq_true, decide_eq_true_eq,
        List.all_eq_true] at hs
      rw [← hfe]
      exact NewEntry_wf k2 v2 t2 hs.1.1 (fun b hb => by
          have := hs.1.2 b hb
          simpa using this)
        (fun b hb => by
          have := hs.2 b hb
          simpa using this)
  | del k2 => simp at hfe

theorem scanEnt_map_fst (fid : Nat) :
    ∀ (off : Nat) (g : List Entry),
    (scanEnt fid off g).map Prod.fst = g := by
  intro off g
  induction g generalizing off with
  | nil => rfl
  | cons e rs ih => simp [scanEnt, ih]

theorem allEnt_map_fst (G : List (Nat × List Entry)) :
    (allEnt G).map Prod.fst = (G.map Prod.snd).flatten := by
  simp only [allEnt, List.map_flatten, List.map_map]
  congr 1
  apply List.map_congr_left
  intro p _
  exact scanEnt_map_fst p.fst 0 p.snd

theorem allEnt_mem (G : List (Nat × List Entry)) (x : Entry × Position)
    (h : x ∈ allEnt G) : ∃ p, p ∈ G ∧ x ∈ scanEnt p.fst 0 p.snd := by
  simp only [allEnt, List.mem_flatten, List.mem_map] at h
  obtain ⟨s, ⟨p, hp, hs⟩, hx⟩ := h
  exact ⟨p, hp, by rw [hs]; exact hx⟩

theorem scanEnt_mem (fid : Nat) (g : List Entry)
    (hwf : ∀ e ∈ g, WFRecord e) :
    ∀ (off : Nat) (x : Entry × Position), x ∈ scanEnt fid off g →
      x.snd.fileId = fid ∧
      ∃ pre suf, encJoin g = pre ++ (x.fst.encode ++ suf) ∧
        x.snd.offset = off + pre.length := by
  induction g with
  | nil => intro off x h; exact absurd h (by simp [scanEnt])
  | cons e rs ih =>
      intro off x h
      simp only [scanEnt, List.mem_cons] at h
      rcases h with h | h
      · subst h
        exact ⟨rfl, [], encJoin rs, by simp, by simp⟩
      · obtain ⟨h1, pre, suf, h2, h3⟩ :=
          ih (fun q hq => hwf q (List.mem_cons_of_mem e hq)) (off + e.size) x h
        refine ⟨h1, e.encode ++ pre, suf, ?_, ?_⟩
        · rw [encJoin_cons, h2, List.append_assoc]
        · have hsl : e.encode.length = e.size := by
            rw [encode_length_wf e (hwf e (by simp)),
              size_wf e (hwf e (by simp))]
          simp only [List.length_append]
          omega

theorem diskStep_entries (limit : Nat)
    (acc : List (Nat × List Entry) × Nat × List Entry) (op : Op) :
    ((diskStep limit acc op).fst.map Prod.snd).flatten ++
        (diskStep limit acc op).snd.snd =
      ((acc.fst.map Prod.snd).flatten ++ acc.snd.snd) ++ opsEntries [op] := by
  cases op with
  | del k => simp [diskStep, opsEntries]
  | put k v t =>
      simp only [diskStep]
      split
      · simp [opsEntries]
      · simp [opsEntries]

theorem diskModel_entries (limit : Nat) :
    ∀ (ops : List Op) (acc : List (Nat × List Entry) × Nat × List Entry),
    ((ops.foldl (diskStep limit) acc).fst.map Prod.snd).flatten ++
        (ops.foldl (diskStep limit) acc).snd.snd =
      ((acc.fst.map Prod.snd).flatten ++ acc.snd.snd) ++ opsEntries ops := by
  intro ops
  induction ops with
  | nil => intro acc; simp [opsEntries]
  | cons op rest ih =>
      intro acc
      simp only [List.foldl_cons]
      rw [ih (diskStep limit acc op), diskStep_entries]
      rw [show (op :: rest) = [op] ++ rest from rfl, opsEntries_append,
        List.append_assoc]

theorem diskModel_ids (limit : Nat) :
    ∀ (ops : List Op) (acc : List (Nat × List Entry) × Nat × List Entry),
    acc.fst.map Prod.fst = List.range acc.snd.fst →
    (ops.foldl (diskStep limit) acc).fst.map Prod.fst =
      List.range (ops.foldl (diskStep limit) acc).snd.fst := by
  intro ops
  induction ops with
  | nil => intro acc h; exact h
  | cons op rest ih =>
      intro acc h
      simp only [List.foldl_cons]
      apply ih
      cases op with
      | del k => exact h
      | put k v t =>
          simp only [diskStep]
          split
          · simp only [List.map_append, List.map_cons, List.map_nil, h]
            exact (List.range_succ acc.snd.fst).symm
          · exact h

theorem diskModel_active_nil (limit : Nat) :
    ∀ (ops : List Op) (acc : List (Nat × List Entry) × Nat × List Entry),
    (acc.snd.snd = [] → acc.fst = []) →
    ((ops.foldl (diskStep limit) acc).snd.snd = [] →
      (ops.foldl (diskStep limit) acc).fst = []) := by
  intro ops
  induction ops with
  | nil => intro acc h; exact h
  | cons op rest ih =>
      intro acc h
      simp only [List.foldl_cons]
      apply ih
      cases op with
      | del k => exact h
      | put k v t =>
          simp only [diskStep]
          split
          · intro hc; simp at hc
          · intro hc; simp at hc

theorem encJoin_ne_nil (g : List Entry) (h : g ≠ []) : encJoin g ≠ [] := by
  cases g with
  | nil => exact absurd rfl h
  | cons e rs =>
      simp only [encJoin_cons, ne_eq, List.append_eq_nil]
      intro hc
      have hlen := congrArg List.length hc.1
      simp only [Entry.encode, List.length_append, leBytes_length,
        List.length_nil] at hlen
      omega

theorem sortInsert_le (x : Nat × List Nat) (l : List (Nat × List Nat))
    (h : ∀ y ∈ l.head?, x.fst ≤ y.fst) : sortInsert x l = x :: l := by
  cases l with
  | nil => rfl
  | cons y ys =>
      simp only [sortInsert]
      rw [if_pos (h y rfl)]

theorem sortFiles_sorted (l : List (Nat × List Nat))
    (h : List.Chain' (fun a b : Nat × List Nat => a.fst ≤ b.fst) l) :
    sortFiles l = l := by
  induction l with
  | nil => rfl
  | cons x xs ih =>
      obtain ⟨h1, h2⟩ := List.chain'_cons'.mp h
      simp only [sortFiles, List.foldr_cons]
      rw [show xs.foldr sortInsert [] = sortFiles xs from rfl, ih h2,
        sortInsert_le x xs h1]

theorem sortFiles_of_map_range (l : List (Nat × List Nat)) (n : Nat)
    (h : l.map Prod.fst = List.range n) : sortFiles l = l := by
  apply sortFiles_sorted
  have hp : (l.map Prod.fst).Pairwise (· < ·) := by
    rw [h]; exact List.pairwise_lt_range n
  rw [List.pairwise_map] at hp
  exact (hp.imp fun hab => le_of_lt hab).chain'

theorem find_by_id (l : List (Nat × List Entry)) (fid : Nat) (g : List Entry)
    (hnd : (l.map Prod.fst).Nodup) (hmem : (fid, g) ∈ l) :
    (l.map fun p => (⟨p.fst, encJoin p.snd, false⟩ : DataFile)).find?
      (fun f => f.fileId == fid) = some ⟨fid, encJoin g, false⟩ := by
  induction l with
  | nil => exact absurd hmem (by simp)
  | cons p rest ih =>
      simp only [List.map_cons, List.nodup_cons] at hnd
      rcases List.mem_cons.mp hmem with h | h
      · rw [← h]
        simp [List.find?]
      · have hne : p.fst ≠ fid := by
          intro hc
          exact hnd.1 (by
            rw [hc]
            exact List.mem_map.mpr ⟨(fid, g), h, rfl⟩)
        simp only [List.map_cons, List.find?]
        rw [show ((⟨p.fst, encJoin p.snd, false⟩ : DataFile).fileId == fid) =
          false by simpa using hne]
        exact ih hnd.2 h

theorem DB_put_rotate (st : DBState) (k v : List Nat) (t : Nat)
    (hc : st.limit ≤ st.active.content.length) :
    DB.put st k v t = .ok
      { active := ⟨st.active.fileId + 1, (NewEntry k v t).encode, false⟩
        older := st.older ++ [{ st.active with closed := true }]
        index := indexPut st.index k
          ⟨st.active.fileId + 1, 0, (NewEntry k v t).size⟩
        bloom := bloomAdd st.bloom k
        limit := st.limit } := by
  simp [DB.put, DB.rotate, if_pos hc]

theorem DB_put_norot (st : DBState) (k v : List Nat) (t : Nat)
    (hc : ¬ st.limit ≤ st.active.content.length)
    (hopen : st.active.closed = false) :
    DB.put st k v t = .ok
      { active := { st.active with
          content := st.active.content ++ (NewEntry k v t).encode }
        older := st.older
        index := indexPut st.index k
          ⟨st.active.fileId, st.active.content.length, (NewEntry k v t).size⟩
        bloom := bloomAdd st.bloom k
        limit := st.limit } := by
  simp [DB.put, if_neg hc, hopen]

theorem runOps_sim (limit : Nat) :
    ∀ (ops : List Op) (st : DBState)
      (acc : List (Nat × List Entry) × Nat × List Entry),
    st.active = ⟨acc.snd.fst, encJoin acc.snd.snd, false⟩ →
    st.older = acc.fst.map
      (fun p => (⟨p.fst, encJoin p.snd, true⟩ : DataFile)) →
    st.limit = limit →
    ∃ st2, runOps st ops = .ok st2 ∧
      st2.active = ⟨(ops.foldl (diskStep limit) acc).snd.fst,
        encJoin (ops.foldl (diskStep limit) acc).snd.snd, false⟩ ∧
      st2.older = (ops.foldl (diskStep limit) acc).fst.map
        (fun p => (⟨p.fst, encJoin p.snd, true⟩ : DataFile)) ∧
      st2.limit = limit := by
  intro ops
  induction ops with
  | nil =>
      intro st acc hA hO hL
      exact ⟨st, rfl, hA, hO, hL⟩
  | cons op rest ih =>
      intro st acc hA hO hL
      cases op with
      | del k =>
          have h := ih (DB.del st k) acc (by simpa [DB.del] using hA)
            (by simpa [DB.del] using hO) (by simpa [DB.del] using hL)
          simpa only [runOps, List.foldl_cons, diskStep] using h
      | put k v t =>
          by_cases hrot : limit ≤ (encJoin acc.snd.snd).length
          · have hc : st.limit ≤ st.active.content.length := by
              rw [hA, hL]; exact hrot
            have hput := DB_put_rotate st k v t hc
            have h := ih
              { active := ⟨st.active.fileId + 1, (NewEntry k v t).encode, false⟩
                older := st.older ++ [{ st.active with closed := true }]
                index := indexPut st.index k
                  ⟨st.active.fileId + 1, 0, (NewEntry k v t).size⟩
                bloom := bloomAdd st.bloom k
                limit := st.limit }
              (acc.fst ++ [(acc.snd.fst, acc.snd.snd)], acc.snd.fst + 1,
                [NewEntry k v t])
              (by rw [hA]; simp [encJoin])
              (by rw [hO, hA]; simp)
              hL
            simp only [List.foldl_cons, diskStep, if_pos hrot] at h ⊢
            simp only [runOps, hput]
            exact h
          · have hc : ¬ st.limit ≤ st.active.content.length := by
              rw [hA, hL]; exact hrot
            have hopen : st.active.closed = false := by rw [hA]
            have hput := DB_put_norot st k v t hc hopen
            have h := ih
              { active := { st.active with
                  content := st.active.content ++ (NewEntry k v t).encode }
                older := st.older
                index := indexPut st.index k
                  ⟨st.active.fileId, st.active.content.length,
                    (NewEntry k v t).size⟩
                bloom := bloomAdd st.bloom k
                limit := st.limit }
              (acc.fst, acc.snd.fst, acc.snd.snd ++ [NewEntry k v t])
              (by rw [hA]; simp [encJoin])
              (by rw [hO])
              hL
            simp only [List.foldl_cons, diskStep, if_neg hrot] at h ⊢
            simp only [runOps, hput]
            exact h

theorem dirFiles_close (st : DBState) :
    (DB.close st).dirFiles = st.dirFiles := by
  simp [DB.close, DBState.dirFiles, List.map_map, Function.comp]

theorem bootstrap_model (limit : Nat) (sealed : List (Nat × List Entry))
    (aid : Nat) (ag : List Entry)
    (hids : sealed.map Prod.fst = List.range aid)
    (hwfG : ∀ p ∈ sealed ++ [(aid, ag)], ∀ e ∈ p.snd, WFRecord e)
    (hagne : ag ≠ []) :
    bootstrap ((sealed ++ [(aid, ag)]).map fun p => (p.fst, encJoin p.snd))
        limit =
      .ok { active := ⟨aid, encJoin ag, false⟩
            older := sealed.map
              fun p => (⟨p.fst, encJoin p.snd, false⟩ : DataFile)
            index := (allEnt (sealed ++ [(aid, ag)])).reverse.map
              (fun p => (p.fst.key, p.snd))
            bloom := (allEnt (sealed ++ [(aid, ag)])).reverse.map
              (fun p => p.fst.key)
            limit := limit } := by
  have hform : ((sealed ++ [(aid, ag)]).map fun p => (p.fst, encJoin p.snd)) =
      (sealed.map fun p => (p.fst, encJoin p.snd)) ++ [(aid, encJoin ag)] := by
    simp
  have hrange : (((sealed ++ [(aid, ag)]).map
      fun p => (p.fst, encJoin p.snd)).map Prod.fst) = List.range (aid + 1) := by
    rw [List.map_map]
    rw [show (Prod.fst ∘ fun p : Nat × List Entry => (p.fst, encJoin p.snd)) =
      Prod.fst from rfl]
    rw [List.map_append, hids]
    simp [List.range_succ]
  have hsort := sortFiles_of_map_range _ (aid + 1) hrange
  have hboot := bootFiles_spec (sealed ++ [(aid, ag)]) hwfG [] []
  simp only [List.append_nil] at hboot
  have hlen : (encJoin ag).length ≠ 0 := by
    intro hc
    exact encJoin_ne_nil ag hagne (List.length_eq_zero.mp hc)
  simp only [bootstrap]
  rw [if_neg (by rw [hform]; simp)]
  rw [hsort, hboot, hform]
  simp only [List.getLast?_concat, List.dropLast_concat]
  rw [if_neg hlen]
  simp [List.map_map, Function.comp]

theorem get_recovered (limit : Nat) (sealed : List (Nat × List Entry))
    (aid : Nat) (ag : List Entry) (k : Key) (v : List Nat) (t : Nat)
    (hids : sealed.map Prod.fst = List.range aid)
    (hwfG : ∀ p ∈ sealed ++ [(aid, ag)], ∀ e ∈ p.snd, WFRecord e)
    (hle : lastEnt (((sealed ++ [(aid, ag)]).map Prod.snd).flatten) k =
      some (NewEntry k v t)) :
    DB.get { active := ⟨aid, encJoin ag, false⟩
             older := sealed.map
               fun p => (⟨p.fst, encJoin p.snd, false⟩ : DataFile)
             index := (allEnt (sealed ++ [(aid, ag)])).reverse.map
               (fun p => (p.fst.key, p.snd))
             bloom := (allEnt (sealed ++ [(aid, ag)])).reverse.map
               (fun p => p.fst.key)
             limit := limit } k = .ok v := by
  have hLF : (lastFor (allEnt (sealed ++ [(aid, ag)])) k).map Prod.fst =
      some (NewEntry k v t) := by
    rw [← lastEnt_map_fst, allEnt_map_fst]
    exact hle
  obtain ⟨x, hx, hxfst⟩ := Option.map_eq_some'.mp hLF
  have hxmem := lastFor_mem (allEnt (sealed ++ [(aid, ag)])) k x hx
  obtain ⟨p, hpG, hxscan⟩ := allEnt_mem (sealed ++ [(aid, ag)]) x hxmem.1
  obtain ⟨hfid, pre, suf, hlayout, hoff⟩ :=
    scanEnt_mem p.fst p.snd (hwfG p hpG) 0 x hxscan
  have hxin : x.fst ∈ p.snd := by
    have h := List.mem_map_of_mem Prod.fst hxscan
    rwa [scanEnt_map_fst] at h
  have hwfx : WFRecord x.fst := hwfG p hpG x.fst hxin
  have hoff2 : x.snd.offset = pre.length := by omega
  have hblm : k ∈ (allEnt (sealed ++ [(aid, ag)])).reverse.map
      (fun p => p.fst.key) :=
    List.mem_map.mpr ⟨x, List.mem_reverse.mpr hxmem.1, hxmem.2⟩
  have hbt : bloomTest ((allEnt (sealed ++ [(aid, ag)])).reverse.map
      fun p => p.fst.key) k = true := by
    simpa [bloomTest, List.elem_iff] using hblm
  have hidx : indexGet ((allEnt (sealed ++ [(aid, ag)])).reverse.map
      (fun p => (p.fst.key, p.snd))) k = some x.snd := by
    rw [List.map_reverse, indexGet_reverse, lastAssoc_map_key, hx]
    rfl
  simp only [DB.get]
  rw [if_neg (not_not_intro hbt)]
  simp only [hidx]
  rcases List.mem_append.mp hpG with hps | hpa
  · -- the record lies in a sealed segment
    have hpfst : p.fst < aid := by
      apply List.mem_range.mp
      rw [← hids]
      exact List.mem_map_of_mem Prod.fst hps
    have hcond : ¬ (x.snd.fileId = aid) := by
      rw [hfid]
      exact Nat.ne_of_lt hpfst
    rw [if_neg hcond]
    have hnd : (sealed.map Prod.fst).Nodup := by
      rw [hids]; exact List.nodup_range aid
    have hfind := find_by_id sealed p.fst p.snd hnd (by simpa using hps)
    rw [hfid]
    simp only [hfind]
    simp only [hoff2, readEntry_at ⟨p.fst, encJoin p.snd, false⟩ pre suf x.fst
      rfl hwfx (by simpa using hlayout)]
    rw [hxfst]
    rfl
  · -- the record lies in the active segment
    have hpa2 : p = (aid, ag) := by simpa using hpa
    have hcond : x.snd.fileId = aid := by
      rw [hfid, hpa2]
    rw [if_pos hcond]
    have hlay2 : encJoin ag = pre ++ (x.fst.encode ++ suf) := by
      rw [← hlayout, hpa2]
    simp only [hoff2, readEntry_at ⟨aid, encJoin ag, false⟩ pre suf x.fst rfl
      hwfx (by simpa using hlay2)]
    rw [hxfst]
    rfl

theorem recovery_core (limit : Nat) (ops : List Op) (k : Key) (v : List Nat)
    (hsz : sizesOK ops = true) (hlast : lastPut ops k = some v) :
    ∃ st st2, runOps (DB.openFresh limit) ops = .ok st ∧
      bootstrap (DB.close st).dirFiles limit = .ok st2 ∧
      DB.get st2 k = .ok v := by
  obtain ⟨st, hrun, hA, hO, hL⟩ := runOps_sim limit ops (DB.openFresh limit)
    ([], 0, []) (by simp [DB.openFresh, encJoin]) (by simp [DB.openFresh])
    (by simp [DB.openFresh])
  set d := ops.foldl (diskStep limit)
    (([], 0, []) : List (Nat × List Entry) × Nat × List Entry) with hd
  have hids : d.fst.map Prod.fst = List.range d.snd.fst :=
    diskModel_ids limit ops ([], 0, []) (by simp)
  have hglue : (d.fst.map Prod.snd).flatten ++ d.snd.snd = opsEntries ops := by
    have h := diskModel_entries limit ops ([], 0, [])
    simpa using h
  obtain ⟨t, hle⟩ := lastPut_lastEnt ops k v hlast
  have hagne : d.snd.snd ≠ [] := by
    intro hag
    have hsea : d.fst = [] :=
      diskModel_active_nil limit ops ([], 0, []) (by intro; rfl) hag
    rw [hag, hsea] at hglue
    simp at hglue
    rw [hglue] at hle
    simp [lastEnt] at hle
  have hwfall : ∀ e ∈ opsEntries ops, WFRecord e := opsEntries_wf ops hsz
  have hwfG : ∀ p ∈ d.fst ++ [(d.snd.fst, d.snd.snd)], ∀ e ∈ p.snd,
      WFRecord e := by
    intro p hp e hep
    apply hwfall
    rw [← hglue]
    rcases List.mem_append.mp hp with hp | hp
    · exact List.mem_append.mpr (Or.inl
        (List.mem_flatten.mpr ⟨p.snd, List.mem_map_of_mem Prod.snd hp, hep⟩))
    · refine List.mem_append.mpr (Or.inr ?_)
      have hpe : p = (d.snd.fst, d.snd.snd) := by simpa using hp
      rw [hpe] at hep
      exact hep
  have hG : (DB.close st).dirFiles =
      (d.fst ++ [(d.snd.fst, d.snd.snd)]).map
        (fun p => (p.fst, encJoin p.snd)) := by
    rw [dirFiles_close]
    simp [DBState.dirFiles, hA, hO, List.map_map, List.map_append,
      Function.comp]
  have hle2 : lastEnt (((d.fst ++ [(d.snd.fst, d.snd.snd)]).map
      Prod.snd).flatten) k = some (NewEntry k v t) := by
    rw [List.map_append, List.flatten_append]
    simpa [hglue] using hle
  have hboot := bootstrap_model limit d.fst d.snd.fst d.snd.snd hids hwfG hagne
  have hget := get_recovered limit d.fst d.snd.fst d.snd.snd k v t hids hwfG
    hle2
  exact ⟨st, _, hrun, by rw [hG]; exact hboot, hget⟩

/-- C3: recovery fidelity.  For every operation sequence of well-sized
puts and deletes against a freshly opened store, and every key k whose
last operation is a put of value v, the run succeeds, and after a clean
close a bootstrap over the resulting directory succeeds and yields a store
whose get(k) returns v: the recovery scan walks all segment files in
file-id order, replays every record into the index and bloom filter with
later records shadowing earlier ones, and terminates at each file's end. -/
theorem c3_recovery_fidelity (limit : Nat) (ops : List Op) (k : Key)
    (v : List Nat) (hsz : sizesOK ops = true)
    (hlast : lastPut ops k = some v) (_hlive : lastOpIsPut ops k = true) :
    ∃ st st2, runOps (DB.openFresh limit) ops = .ok st ∧
      bootstrap (DB.close st).dirFiles limit = .ok st2 ∧
      DB.get st2 k = .ok v :=
  recovery_core limit ops k v hsz hlast

theorem c3_recovery_fidelity_witness :
    sizesOK [Op.put [97] [49] 0, Op.put [98] [50] 1, Op.del [98],
      Op.put [97] [51] 2] = true ∧
    lastPut [Op.put [97] [49] 0, Op.put [98] [50] 1, Op.del [98],
      Op.put [97] [51] 2] [97] = some [51] ∧
    lastOpIsPut [Op.put [97] [49] 0, Op.put [98] [50] 1, Op.del [98],
      Op.put [97] [51] 2] [97] = true ∧
    (∃ st st2, runOps (DB.openFresh 25) [Op.put [97] [49] 0,
        Op.put [98] [50] 1, Op.del [98], Op.put [97] [51] 2] = .ok st ∧
      bootstrap (DB.close st).dirFiles 25 = .ok st2 ∧
      DB.get st2 [97] = .ok [51]) :=
  ⟨by decide, by decide, by decide,
    c3_recovery_fidelity 25 [Op.put [97] [49] 0, Op.put [98] [50] 1,
      Op.del [98], Op.put [97] [51] 2] [97] [51]
      (by decide) (by decide) (by decide)⟩

/-- C9: deletes are not durable.  Put k then delete k against a fresh
store: the live store then misses k (the delete removed the index entry),
but no tombstone was written, so after a clean close the recovery scan
re-inserts k from its on-disk record and get(k) returns the deleted value
v instead of KeyNotFound. -/
theorem c9_delete_not_durable (limit : Nat) (k v : List Nat) (t : Nat)
    (hlim : 0 < limit)
    (hsz : sizesOK [Op.put k v t, Op.del k] = true) :
    ∃ st st2, runOps (DB.openFresh limit) [Op.put k v t, Op.del k] = .ok st ∧
      DB.get st k = .err .keyNotFound ∧
      bootstrap (DB.close st).dirFiles limit = .ok st2 ∧
      DB.get st2 k = .ok v := by
  have h0 : lastPut [Op.put k v t, Op.del k] k = some v := by
    simp [lastPut]
  obtain ⟨st, st2, h1, h2, h3⟩ :=
    recovery_core limit [Op.put k v t, Op.del k] k v hsz h0
  refine ⟨st, st2, h1, ?_, h2, h3⟩
  have hput := DB_put_norot (DB.openFresh limit) k v t
    (by simp [DB.openFresh]; omega) rfl
  simp [DB.openFresh] at hput
  have hrun2 : runOps (DB.openFresh limit) [Op.put k v t, Op.del k] =
      .ok { active := ⟨0, (NewEntry k v t).encode, false⟩
            older := []
            index := []
            bloom := [k]
            limit := limit } := by
    simp [runOps, hput, DB.del, DB.openFresh, indexDel, indexPut, bloomAdd]
  rw [hrun2] at h1
  injection h1 with h1'
  rw [← h1']
  simp [DB.get, bloomTest, indexGet]

theorem c9_delete_not_durable_witness :
    0 < 25 ∧
    sizesOK [Op.put [97] [49] 0, Op.del [97]] = true ∧
    (∃ st st2, runOps (DB.openFresh 25) [Op.put [97] [49] 0,
        Op.del [97]] = .ok st ∧
      DB.get st [97] = .err .keyNotFound ∧
      bootstrap (DB.close st).dirFiles 25 = .ok st2 ∧
      DB.get st2 [97] = .ok [49]) :=
  ⟨by decide, by decide,
    c9_delete_not_durable 25 [97] [49] 0 (by decide) (by decide)⟩

end TideKV
